import Mathlib

/-!
# calver-tagger: the tag migration planner and applier of `main.go`

A shallow embedding of `main.go` and the properties of its migration plan.

* Slices of `*tag` are lists of records; the in-place updates the program makes through
  the pointers (`tag.commit = ...`, `tag.to += ...`) are record updates on the list.
* A nil `*object.Commit` is `none`; dereferencing it is a Go run-time panic, modelled
  by the result `none` of the function in which it happens.
* The two places where Go leaves the outcome open are parameters (`Runtime`): the order
  in which `range` visits a map, and what `slices.SortFunc` does with elements that its
  comparison does not separate.  `smallRuntime` is the instance Go runs on at most
  twelve elements (insertion sort), `runtime13` the one it runs on thirteen (one
  partition of its pattern-defeating quicksort around the insertion sort).
* `time.Time`, `fmt.Sprintf` and the go-git repository are library code: they are
  modelled by `Time`, `decimal` / `formatInt` and the records `Repository` / `RefStore`.
  `Time.Year` and `Time.Month` read the calendar from Go's absolute seconds, a `uint64`
  that wraps around for the lowest 257 years of the `int64` range.  `storeRepository`
  is the repository over an object store, where the object under a hash has one type.
-/

namespace CalverTagger

/-! ## Library model: integers, formatting, time -/

/-- The value of a Go `int64` expression whose mathematical value is `x`
(two's complement wrap-around). -/
def wrapInt64 (x : Int) : Int := (x + 2 ^ 63) % 2 ^ 64 - 2 ^ 63

/-- The decimal digit `d` as a character. -/
def digitChar (d : Nat) : Char := Char.ofNat (48 + d)

/-- Digits of `n`, most significant first, in front of `acc`; `fuel` bounds the number
of digits. -/
def decimalAux : Nat → Nat → List Char → List Char
  | 0, _, acc => acc
  | fuel + 1, n, acc =>
    if n < 10 then digitChar n :: acc
    else decimalAux fuel (n / 10) (digitChar (n % 10) :: acc)

/-- The text `%d` prints for a natural number. -/
def decimal (n : Nat) : String := ⟨decimalAux (n + 1) n []⟩

/-- The text `%d` prints for an integer. -/
def formatInt (i : Int) : String :=
  if i < 0 then "-" ++ decimal i.natAbs else decimal i.natAbs

/-- A `time.Time` as go-git builds it for a signature: `time.Unix(unix, 0)` placed in the
fixed zone `offset` seconds east of UTC.  `unix` is an `int64`. -/
structure Time where
  unix : Int
  offset : Int
deriving DecidableEq, Repr

/-- The range of the times go-git decodes from a signature: an `int64` number of
seconds and a zone of at most 99 hours and 99 minutes east or west. -/
def Time.Valid (t : Time) : Prop :=
  -2 ^ 63 ≤ t.unix ∧ t.unix < 2 ^ 63 ∧ -362340 ≤ t.offset ∧ t.offset ≤ 362340

/-- Go's `Time.Unix()`. -/
def Time.Unix (t : Time) : Int := t.unix

/-- Go's `unixToInternal + internalToAbsolute`: the seconds from the absolute epoch of
package `time` (1 March of the year -292277022400, the start of a 400-year cycle) to
1970-01-01, which are 106751991073400 days.  This is the epoch of Go 1.23 and later;
earlier releases count from 1 January of the next year, 306 days later. -/
def unixToAbsolute : Int := 9223372028741760000

/-- Go's `Time.absSec()`: the seconds from the absolute epoch to `t` on the clock of
its zone, `uint64(sec + offset + unixToAbsolute)`.  The sum is taken modulo `2 ^ 64`,
which is 18446744073709551616: it wraps around for a time before the absolute epoch. -/
def Time.absSec (t : Time) : Int :=
  (t.unix + t.offset + unixToAbsolute) % 18446744073709551616

/-- Days from 0001-01-01 to the civil day that Go reads for `t` in its own zone: day
`absSec / 86400` after the absolute epoch, which is day -106751991073400 of the Unix
era, and 1970-01-01 is 719162 days after 0001-01-01.  Go splits the day count from the
absolute epoch into year and month of the Gregorian calendar; `yearDay` and `monthOf`
below split the same day, counted from 0001-01-01. -/
def Time.days (t : Time) : Int := t.absSec / 86400 - 106751991073400 + 719162

/-- The times that Go's calendar reads without wrap-around: those not before the
absolute epoch on the clock of their zone.  Of the `int64` range this leaves out the
lowest 8113015808 seconds (257 years). -/
def Time.NoWrap (t : Time) : Prop := -9223372028741760000 ≤ t.unix + t.offset

/-- Go's `isLeap`. -/
def isLeap (year : Int) : Bool :=
  year % 4 == 0 && (year % 100 != 0 || year % 400 == 0)

/-- Go's `daysBefore` table: days of a non-leap year before month `m` (0-based). -/
def daysBefore (m : Int) : Int :=
  [0, 31, 59, 90, 120, 151, 181, 212, 243, 273, 304, 334, 365].getD m.toNat 0

/-- The year and the day in that year (from 0) of day number `d`, by the cycle cut-offs
of Go's `absDate`: 400-year cycles, then 100-year, 4-year and single years. -/
def yearDay (d : Int) : Int × Int :=
  let n400 := d / 146097
  let d1 := d - 146097 * n400
  let n100 := d1 / 36524 - d1 / 36524 / 4
  let d2 := d1 - 36524 * n100
  let n4 := d2 / 1461
  let d3 := d2 - 1461 * n4
  let n1 := d3 / 365 - d3 / 365 / 4
  (1 + 400 * n400 + 100 * n100 + 4 * n4 + n1, d3 - 365 * n1)

/-- The month (1 to 12) of the `yday`-th day of `year`, as Go's `absDate` finds it:
drop the leap day, estimate with 31-day months, adjust by the table. -/
def monthOf (year yday : Int) : Int :=
  if isLeap year ∧ yday = 59 then 2
  else
    let day := if isLeap year ∧ yday > 59 then yday - 1 else yday
    let month := day / 31
    if day ≥ daysBefore (month + 1) then month + 2 else month + 1

/-- Go's `Time.Year()`: the year in the zone of `t`. -/
def Time.Year (t : Time) : Int := (yearDay t.days).1

/-- Go's `Time.Month()` as an integer: the month in the zone of `t`. -/
def Time.Month (t : Time) : Int := monthOf (yearDay t.days).1 (yearDay t.days).2

/-- First day (from 0) of month `m` in a year that is leap or not. -/
def monthStart (leap : Bool) (m : Int) : Int :=
  daysBefore (m - 1) + (if leap = true ∧ 3 ≤ m then 1 else 0)

/-! ## Data model -/

/-- A `plumbing.Hash`. -/
abbrev Hash := String

/-- An `object.Commit`: its hash and `Committer.When`. -/
structure Commit where
  Hash : Hash
  When : Time
deriving DecidableEq, Repr

/-- A `plumbing.Reference` of a tag: `Name().Short()` and `Hash()`. -/
structure Reference where
  Name : String
  Hash : Hash
deriving DecidableEq, Repr

set_option linter.dupNamespace false in
/-- The record `tag` of `main.go`; `from` and `to` are written `from_` and `to_`. -/
structure tag where
  from_ : String
  to_ : String
  tag : Reference
  message : String
  commit : Option Commit
deriving DecidableEq, Repr

/-- What `repo.TagObject` returns: a tag object, `plumbing.ErrObjectNotFound`, or
another error. -/
inductive TagLookup where
  | found (Message : String)
  | notFound
  | failed (err : String)
deriving DecidableEq, Repr

/-- What enumerating the tags gives: `repo.Tags()` fails, `tagIter.ForEach` fails, or
the references in the order of the iterator. -/
inductive TagsResult where
  | tagsFailed (err : String)
  | forEachFailed (err : String)
  | refs (l : List Reference)
deriving DecidableEq, Repr

/-- The read side of `*git.Repository` that `getTags` uses. -/
structure Repository where
  Tags : TagsResult
  CommitObject : Hash → Except String Commit
  TagObject : Hash → TagLookup

/-- An object of the object store as `getTags` reads it: a commit, or the object of an
annotated tag with its message and the hash of the object it tags. -/
inductive Object where
  | commit (c : Commit)
  | tag (Message : String) (Target : Hash)
deriving DecidableEq, Repr

/-- The read side of a go-git repository over the tag references `refs` and an object
store: `CommitObject` and `TagObject` ask the store for an object of their own type
under the hash and return `plumbing.ErrObjectNotFound` when there is no object under
it or the object is of another type. -/
def storeRepository (refs : List Reference) (objects : Hash → Option Object) : Repository where
  Tags := .refs refs
  CommitObject := fun h =>
    match objects h with
    | some (.commit c) => .ok c
    | _ => .error "object not found"
  TagObject := fun h =>
    match objects h with
    | some (.tag m _) => .found m
    | _ => .notFound

/-- No hash is both a commit and a tag object: what an object store gives, where the
object under a hash has one type. -/
def Repository.OneTypePerHash (repo : Repository) : Prop :=
  ∀ h c, repo.CommitObject h = .ok c → ∀ m, repo.TagObject h ≠ .found m

/-- The write side of `*git.Repository` over a reference store `σ`; each operation
returns whether it succeeded and the new store. -/
structure RefStore (σ : Type) where
  CreateTag : σ → String → Hash → String → Bool × σ
  DeleteTag : σ → String → Bool × σ

/-- What Go leaves open: the algorithm of `slices.SortFunc` and the order in which
`range` visits the entries of a map. -/
structure Runtime where
  sortFunc : (tag → tag → Int) → List tag → List tag
  mapRange : List (String × List tag) → List (String × List tag)

/-- The contract of the runtime: `slices.SortFunc` permutes its slice and, when the
"less" relation `cmp a b < 0` is the strict order of a key, leaves it ascending in that
key; `range` visits every entry of the map exactly once. -/
structure Runtime.Lawful (rt : Runtime) : Prop where
  sortFunc_perm : ∀ cmp l, (rt.sortFunc cmp l).Perm l
  sortFunc_sorted : ∀ cmp l (key : tag → Int),
    (∀ a ∈ l, ∀ b ∈ l, (cmp a b < 0 ↔ key a < key b)) →
    (rt.sortFunc cmp l).Pairwise (fun a b => key a ≤ key b)
  mapRange_perm : ∀ m, (rt.mapRange m).Perm m

/-- One step of the inner loop of Go's `insertionSortCmpFunc`: `x` moves towards the
front of the sorted prefix (given last element first) while `cmp x prev < 0`. -/
def insertBack (cmp : tag → tag → Int) (x : tag) : List tag → List tag
  | [] => [x]
  | y :: ys => if cmp x y < 0 then y :: insertBack cmp x ys else x :: y :: ys

/-- Go's `insertionSortCmpFunc`, which `slices.SortFunc` runs on slices of at most
twelve elements. -/
def insertionSortCmpFunc (cmp : tag → tag → Int) (l : List tag) : List tag :=
  (l.foldl (fun sortedRev x => insertBack cmp x sortedRev) []).reverse

/-- The runtime of a small run: insertion sort, map entries visited in the order in
which their keys were first inserted. -/
def smallRuntime : Runtime := ⟨insertionSortCmpFunc, id⟩

/-! ## The program -/

/-- Committer time of a record in Unix seconds, `tag.commit.Committer.When.Unix()`.
On a nil commit Go panics; `sortTagsByDate` accounts for that before comparing. -/
def unixOf (t : tag) : Int :=
  match t.commit with
  | some c => c.When.Unix
  | none => 0

/-- The comparison of `sortTagsByDate`:
`int(a.commit.Committer.When.Unix() - b.commit.Committer.When.Unix())`, an `int64`
subtraction. -/
def cmpByDate (a b : tag) : Int := wrapInt64 (unixOf a - unixOf b)

/-- `sortTagsByDate`.  `slices.SortFunc` compares every element of a slice of two or
more, so a nil commit among two or more records is a nil dereference (`none`); on a
shorter slice the comparison is never called. -/
def sortTagsByDate (rt : Runtime) (tags : List tag) : Option (List tag) :=
  if 2 ≤ tags.length ∧ (tags.any fun t => t.commit.isNone) = true then none
  else some (rt.sortFunc cmpByDate tags)

/-- The statement `tagMap[k] = append(tagMap[k], t)` on a map kept as an association
list with distinct keys. -/
def mapAppend (m : List (String × List tag)) (k : String) (t : tag) :
    List (String × List tag) :=
  match m with
  | [] => [(k, [t])]
  | (k1, l) :: rest =>
    if k1 = k then (k1, l ++ [t]) :: rest else (k1, l) :: mapAppend rest k t

/-- First loop of `calculateTagRevision`: the map from name to the records carrying it. -/
def buildTagMap (tags : List tag) : List (String × List tag) :=
  tags.foldl (fun m t => mapAppend m t.to_ t) []

/-- The distinct names of `tags` in the order of their first occurrence: the keys of
`buildTagMap tags`. -/
def keysOf (tags : List tag) : List String :=
  tags.foldl (fun ks t => if t.to_ ∈ ks then ks else ks ++ [t.to_]) []

/-- The records of `tags` named `k`, in the order of `tags`: the entry of
`buildTagMap tags` under `k`. -/
def groupOf (tags : List tag) (k : String) : String × List tag :=
  (k, tags.filter (fun t => t.to_ = k))

/-- Inner loop of `calculateTagRevision` from index `n` on:
`tag.to += fmt.Sprintf(".%d", n+1)`. -/
def renumberFrom (n : Nat) : List tag → List tag
  | [] => []
  | t :: ts => { t with to_ := t.to_ ++ ("." ++ decimal (n + 1)) } :: renumberFrom (n + 1) ts

/-- The names the inner loop gives to the records of one map entry, in order: the key
followed by `.1`, `.2`, ... -/
def revisionNames (e : String × List tag) : List String :=
  (List.range e.2.length).map (fun i => e.1 ++ ("." ++ decimal (i + 1)))

/-- The fields of a record that revision numbering and sorting do not assign. -/
def frame (t : tag) : String × Reference × String × Option Commit :=
  (t.from_, t.tag, t.message, t.commit)

/-- Second loop of `calculateTagRevision` over the entries in the order of the range. -/
def revisionLoop (rt : Runtime) : List (String × List tag) → Option (List tag)
  | [] => some []
  | (_, tagList) :: rest =>
    match sortTagsByDate rt tagList with
    | none => none
    | some sortedTags =>
      match revisionLoop rt rest with
      | none => none
      | some out => some (renumberFrom 0 sortedTags ++ out)

/-- `calculateTagRevision`. -/
def calculateTagRevision (rt : Runtime) (tags : List tag) : Option (List tag) :=
  revisionLoop rt (rt.mapRange (buildTagMap tags))

/-- The record `getTags` appends for a reference in `tagIter.ForEach`. -/
def newTag (r : Reference) : tag :=
  { from_ := r.Name, to_ := "", tag := r, message := "converted from tag " ++ r.Name,
    commit := none }

/-- The name `fmt.Sprintf("v%d.%d", year, month)` of a committer time. -/
def deriveName (t : Time) : String :=
  "v" ++ formatInt t.Year ++ "." ++ formatInt t.Month

/-- One iteration of the loop of `getTags` over the collected records (lines 107-129):
the record it leaves and the value it leaves in the named result `err`, which is the
error of `repo.CommitObject`; the `err` of `repo.TagObject` is a new variable of the
loop body. -/
def resolveStep (repo : Repository) (t : tag) : tag × Option String :=
  match repo.CommitObject t.tag.Hash with
  | .error e => ({ t with commit := none }, some e)
  | .ok c =>
    match repo.TagObject t.tag.Hash with
    | .failed _ => ({ t with commit := some c }, none)
    | .notFound => ({ t with commit := some c, to_ := deriveName c.When }, none)
    | .found m =>
      ({ t with commit := some c, message := m ++ " (" ++ t.message ++ ")",
                to_ := deriveName c.When }, none)

/-- The loop of `getTags` over the collected records, started with `err`: the records
and the value of `err` after it. -/
def resolveLoop (repo : Repository) : List tag → Option String → List tag × Option String
  | [], err => ([], err)
  | t :: ts, _ =>
    let r := resolveLoop repo ts (resolveStep repo t).2
    ((resolveStep repo t).1 :: r.1, r.2)

/-- The last two statements of `getTags` (lines 131-132): number the revisions, then
sort by date. -/
def planOf (rt : Runtime) (tags : List tag) : Option (List tag) :=
  match calculateTagRevision rt tags with
  | none => none
  | some tagged => sortTagsByDate rt tagged

/-- `getTags`: `none` is a panic, otherwise the pair `(out, err)` it returns. -/
def getTags (rt : Runtime) (repo : Repository) : Option (List tag × Option String) :=
  match repo.Tags with
  | .tagsFailed e => some ([], some ("could not read tag iterator from repo: " ++ e ++ " "))
  | .forEachFailed e => some ([], some ("error iterating over tags: " ++ e ++ " "))
  | .refs l =>
    let r := resolveLoop repo (l.map newTag) none
    match planOf rt r.1 with
    | none => none
    | some out => some (out, r.2)

/-- A call of a write operation of the repository and whether it succeeded. -/
inductive Call where
  | CreateTag (name : String) (hash : Hash) (message : String) (ok : Bool)
  | DeleteTag (name : String) (ok : Bool)
deriving DecidableEq, Repr

/-- How a run of `main` ends. -/
inductive Exit where
  | done
  | fatal (msg : String)
  | panic
deriving DecidableEq, Repr

/-- What a run of `main` does: how it ends, the lines on standard output, the write
calls in order, and the reference store it leaves. -/
structure Run (σ : Type) where
  exit : Exit
  stdout : List String
  calls : List Call
  store : σ

/-- The line `fmt.Printf("%s --> %s message: %s\n", ...)` of a record. -/
def planLine (t : tag) : String :=
  t.from_ ++ " --> " ++ t.to_ ++ " message: " ++ t.message

/-- The apply loop of `main` (lines 65-81): whether it panicked, its calls, the store. -/
def applyLoop {σ : Type} (gw : RefStore σ) (deleteOld : Bool) :
    List tag → σ → Bool × List Call × σ
  | [], s => (false, [], s)
  | t :: ts, s =>
    match t.commit with
    | none => (true, [], s)
    | some c =>
      let created := gw.CreateTag s t.to_ c.Hash t.message
      let call1 := Call.CreateTag t.to_ c.Hash t.message created.1
      if !deleteOld then
        let r := applyLoop gw deleteOld ts created.2
        (r.1, call1 :: r.2.1, r.2.2)
      else
        let deleted := gw.DeleteTag created.2 t.from_
        let r := applyLoop gw deleteOld ts deleted.2
        (r.1, call1 :: Call.DeleteTag t.from_ deleted.1 :: r.2.1, r.2.2)

/-- `main` from the opened repository on (line 47): `dryRun` and `deleteOld` are the
flags, `s` the reference store at the start. -/
def main {σ : Type} (rt : Runtime) (repo : Repository) (gw : RefStore σ)
    (dryRun deleteOld : Bool) (s : σ) : Run σ :=
  match getTags rt repo with
  | none => ⟨.panic, [], [], s⟩
  | some (_, some err) => ⟨.fatal ("could not get tags from repo: " ++ err), [], [], s⟩
  | some (tags, none) =>
    let lines := "Tags to migrate:" :: tags.map planLine
    if dryRun then ⟨.done, lines, [], s⟩
    else
      let r := applyLoop gw deleteOld tags s
      ⟨if r.1 then .panic else .done, lines, r.2.1, r.2.2⟩

/-- A reference store as the set of tag names present: creating an existing name
fails (`ErrTagExists`), deleting an absent one fails (`ErrTagNotFound`). -/
def nameStore : RefStore (List String) where
  CreateTag := fun s name _ _ => if name ∈ s then (false, s) else (true, name :: s)
  DeleteTag := fun s name => if name ∈ s then (true, s.erase name) else (false, s)

/-! ## Example repositories -/

/-- A commit of 2024-06-10 00:00:00 UTC. -/
def commitJune : Commit := ⟨"c1", ⟨1717977600, 0⟩⟩

/-- One lightweight tag `release` on `commitJune`. -/
def repoRelease : Repository where
  Tags := .refs [⟨"release", "c1"⟩]
  CommitObject := fun h => if h = "c1" then .ok commitJune else .error "object not found"
  TagObject := fun _ => .notFound

/-- One annotated tag `release` with message `first cut` on `commitJune`: the reference
holds the hash `t1` of the tag object, which tags the commit `c1`. -/
def repoAnnotatedTag : Repository :=
  storeRepository [⟨"release", "t1"⟩] fun h =>
    if h = "t1" then some (.tag "first cut" "c1")
    else if h = "c1" then some (.commit commitJune)
    else none

/-- Three lightweight tags on commits of 2023-01-05, 2023-01-20 and 2023-02-01 (00:00
UTC), enumerated in that order. -/
def repoJanFeb : Repository where
  Tags := .refs [⟨"first", "c1"⟩, ⟨"second", "c2"⟩, ⟨"third", "c3"⟩]
  CommitObject := fun h =>
    if h = "c1" then .ok ⟨"c1", ⟨1672876800, 0⟩⟩
    else if h = "c2" then .ok ⟨"c2", ⟨1674172800, 0⟩⟩
    else if h = "c3" then .ok ⟨"c3", ⟨1675209600, 0⟩⟩
    else .error "object not found"
  TagObject := fun _ => .notFound

/-- The records of `repoJanFeb` after the loop of `getTags`, before numbering. -/
def recordsJanFeb : List tag :=
  (resolveLoop repoJanFeb ([⟨"first", "c1"⟩, ⟨"second", "c2"⟩, ⟨"third", "c3"⟩].map newTag)
    none).1

/-- The records of `repoJanFeb` when its tags are enumerated in the opposite order. -/
def recordsJanFebRev : List tag :=
  (resolveLoop repoJanFeb ([⟨"third", "c3"⟩, ⟨"second", "c2"⟩, ⟨"first", "c1"⟩].map newTag)
    none).1

/-- A tag `release` whose hash `t1` does not resolve to a commit (`CommitObject`
returns an error for it) and a lightweight tag `nightly` on `commitJune`. -/
def repoBroken : Repository where
  Tags := .refs [⟨"release", "t1"⟩, ⟨"nightly", "c1"⟩]
  CommitObject := fun h => if h = "c1" then .ok commitJune else .error "object not found"
  TagObject := fun h => if h = "t1" then .found "first cut" else .notFound

/-- The repository `repoBroken` with the tag `release` alone. -/
def repoBrokenOnly : Repository :=
  { repoBroken with Tags := .refs [⟨"release", "t1"⟩] }

/-- The repository `repoBroken` without the tag `release`. -/
def repoNightly : Repository :=
  { repoBroken with Tags := .refs [⟨"nightly", "c1"⟩] }

/-- The repository `repoBroken` with `release` enumerated last. -/
def repoBrokenLast : Repository :=
  { repoBroken with Tags := .refs [⟨"nightly", "c1"⟩, ⟨"release", "t1"⟩] }

/-- Two lightweight tags whose commits are `2 ^ 62` and `-2 ^ 62 - 1` seconds from the
Unix epoch. -/
def repoFar : Repository where
  Tags := .refs [⟨"late", "c1"⟩, ⟨"early", "c2"⟩]
  CommitObject := fun h =>
    if h = "c1" then .ok ⟨"c1", ⟨4611686018427387904, 0⟩⟩
    else if h = "c2" then .ok ⟨"c2", ⟨-4611686018427387905, 0⟩⟩
    else .error "object not found"
  TagObject := fun _ => .notFound

/-- The repository `repoFar` with its tags enumerated in the other order. -/
def repoFarRev : Repository :=
  { repoFar with Tags := .refs [⟨"early", "c2"⟩, ⟨"late", "c1"⟩] }

/-- Two lightweight tags `a` and `b` on the same commit, enumerated as `a`, `b`. -/
def repoTie : Repository where
  Tags := .refs [⟨"a", "c1"⟩, ⟨"b", "c1"⟩]
  CommitObject := fun h => if h = "c1" then .ok commitJune else .error "object not found"
  TagObject := fun _ => .notFound

/-- The repository `repoTie` with its tags enumerated as `b`, `a`. -/
def repoTieRev : Repository :=
  { repoTie with Tags := .refs [⟨"b", "c1"⟩, ⟨"a", "c1"⟩] }

/-- The source name and target name of each record of a plan, in plan order. -/
def renames (plan : List tag) : List (String × String) :=
  plan.map (fun t => (t.from_, t.to_))

/-- The create calls among `calls`: target name, commit hash and message of each. -/
def createCalls : List Call → List (String × Hash × String)
  | [] => []
  | .CreateTag name hash message _ :: rest => (name, hash, message) :: createCalls rest
  | .DeleteTag _ _ :: rest => createCalls rest

/-- The names passed to `DeleteTag` among `calls`. -/
def deleteCalls : List Call → List String
  | [] => []
  | .CreateTag _ _ _ _ :: rest => deleteCalls rest
  | .DeleteTag name _ :: rest => name :: deleteCalls rest

/-! ## Further runtimes and example repositories -/

/-- The record that the loop of `getTags` leaves for a lightweight tag `name` on a
commit made `unix` seconds after the epoch, in UTC. -/
def recordAt (name : String) (unix : Int) : tag :=
  { from_ := name, to_ := deriveName ⟨unix, 0⟩, tag := ⟨name, name⟩,
    message := "converted from tag " ++ name, commit := some ⟨name, ⟨unix, 0⟩⟩ }

/-- The runtime `smallRuntime` with the map entries visited in the opposite order. -/
def reverseRangeRuntime : Runtime := ⟨insertionSortCmpFunc, List.reverse⟩

/-- Whether `repo.TagObject` fails for a reference with an error other than
`plumbing.ErrObjectNotFound`. -/
def lookupFailed (repo : Repository) (r : Reference) : Bool :=
  match repo.TagObject r.Hash with
  | .failed _ => true
  | _ => false

/-- A lightweight tag `nightly` on `commitJune` and two tags `odd` and `odder`, on
commits of 2023-01-05 and 2023-02-01, for whose hashes `TagObject` fails with an error
that is not "object not found". -/
def repoLookupFails : Repository where
  Tags := .refs [⟨"nightly", "c1"⟩, ⟨"odd", "c2"⟩, ⟨"odder", "c3"⟩]
  CommitObject := fun h =>
    if h = "c1" then .ok commitJune
    else if h = "c2" then .ok ⟨"c2", ⟨1672876800, 0⟩⟩
    else if h = "c3" then .ok ⟨"c3", ⟨1675209600, 0⟩⟩
    else .error "object not found"
  TagObject := fun h => if h = "c1" then .notFound else .failed "unexpected EOF"

/-- The statement `data[i], data[j] = data[j], data[i]`. -/
def swapAt (data : List tag) (i j : Nat) : List tag :=
  match data[i]?, data[j]? with
  | some x, some y => (data.set i y).set j x
  | _, _ => data

/-- Go's `order2CmpFunc`: the indices `a` and `b` in the order of their elements, and
the count of swaps after it. -/
def order2CmpFunc (cmp : tag → tag → Int) (data : List tag) (a b swaps : Nat) :
    Nat × Nat × Nat :=
  match data[a]?, data[b]? with
  | some x, some y => if cmp y x < 0 then (b, a, swaps + 1) else (a, b, swaps)
  | _, _ => (a, b, swaps)

/-- Go's `medianCmpFunc`: the index among `a`, `b`, `c` of the median element, and the
count of swaps after it. -/
def medianCmpFunc (cmp : tag → tag → Int) (data : List tag) (a b c swaps : Nat) :
    Nat × Nat :=
  let ab := order2CmpFunc cmp data a b swaps
  let bc := order2CmpFunc cmp data ab.2.1 c ab.2.2
  let ab2 := order2CmpFunc cmp data ab.1 bc.1 bc.2.2
  (ab2.2.1, ab2.2.2)

/-- Go's `choosePivotCmpFunc` on `data[a:b]` of 8 to 49 elements: the median of the
elements at the three quarter points, and the count of swaps (0 is `increasingHint`). -/
def choosePivotCmpFunc (cmp : tag → tag → Int) (data : List tag) (a b : Nat) : Nat × Nat :=
  let l := b - a
  medianCmpFunc cmp data (a + l / 4 * 1) (a + l / 4 * 2) (a + l / 4 * 3) 0

/-- What Go's `partialInsertionSortCmpFunc` returns on fewer than 50 elements, which it
does not move: whether no element compares less than the one before it. -/
def partialInsertionSortCmpFunc (cmp : tag → tag → Int) : List tag → Bool
  | a :: b :: rest => !(decide (cmp b a < 0)) && partialInsertionSortCmpFunc cmp (b :: rest)
  | _ => true

/-- The loop `for i <= j && cmp(data[i], data[a]) < 0 { i++ }` of Go's
`partitionCmpFunc`, `p` being the pivot `data[a]`: the final `i`. -/
def scanUp (cmp : tag → tag → Int) (data : List tag) (p : tag) : Nat → Nat → Nat → Nat
  | 0, i, _ => i
  | fuel + 1, i, j =>
    match data[i]? with
    | some x => if i ≤ j ∧ cmp x p < 0 then scanUp cmp data p fuel (i + 1) j else i
    | none => i

/-- The loop `for i <= j && !(cmp(data[j], data[a]) < 0) { j-- }` of Go's
`partitionCmpFunc`: the final `j`. -/
def scanDown (cmp : tag → tag → Int) (data : List tag) (p : tag) : Nat → Nat → Nat → Nat
  | 0, _, j => j
  | fuel + 1, i, j =>
    match data[j]? with
    | some x => if i ≤ j ∧ ¬ cmp x p < 0 then scanDown cmp data p fuel i (j - 1) else j
    | none => j

/-- The main loop of Go's `partitionCmpFunc`: the slice and `j` when it breaks. -/
def partitionLoop (cmp : tag → tag → Int) (p : tag) :
    Nat → List tag → Nat → Nat → List tag × Nat
  | 0, data, _, j => (data, j)
  | fuel + 1, data, i, j =>
    let i1 := scanUp cmp data p data.length i j
    let j1 := scanDown cmp data p data.length i1 j
    if i1 > j1 then (data, j1)
    else partitionLoop cmp p fuel (swapAt data i1 j1) (i1 + 1) (j1 - 1)

/-- Go's `partitionCmpFunc` on `data[a:b]` with the pivot at index `pivot`: the slice
after it, the index `mid` of the pivot, and whether the slice was already partitioned. -/
def partitionCmpFunc (cmp : tag → tag → Int) (data : List tag) (a b pivot : Nat) :
    List tag × Nat × Bool :=
  let data1 := swapAt data a pivot
  match data1[a]? with
  | none => (data1, a, true)
  | some p =>
    let i := scanUp cmp data1 p data1.length (a + 1) (b - 1)
    let j := scanDown cmp data1 p data1.length i (b - 1)
    if i > j then (swapAt data1 j a, j, true)
    else
      let r := partitionLoop cmp p data1.length (swapAt data1 i j) (i + 1) (j - 1)
      (swapAt r.1 r.2 a, r.2, false)

/-- Go's `slices.SortFunc` (`pdqsortCmpFunc`) on a slice of at most thirteen elements.
Up to twelve elements it is the insertion sort.  On thirteen it chooses the pivot,
returns at once when the hint is `increasingHint` and the slice is in order, and
otherwise partitions around the pivot and sorts the two sides, of at most twelve
elements each, by insertion.  Longer slices are outside this model (it sorts them by
insertion). -/
def pdqsortCmpFunc13 (cmp : tag → tag → Int) (data : List tag) : List tag :=
  if data.length = 13 then
    let pivot := choosePivotCmpFunc cmp data 0 13
    if pivot.2 = 0 ∧ partialInsertionSortCmpFunc cmp data = true then data
    else
      let r := partitionCmpFunc cmp data 0 13 pivot.1
      insertionSortCmpFunc cmp (r.1.take r.2.1) ++ (r.1.drop r.2.1).take 1 ++
        insertionSortCmpFunc cmp (r.1.drop (r.2.1 + 1))
  else insertionSortCmpFunc cmp data

/-- The runtime of a run on thirteen records: `pdqsortCmpFunc13`, map entries visited in
the order in which their keys were first inserted. -/
def runtime13 : Runtime := ⟨pdqsortCmpFunc13, id⟩

/-- Thirteen lightweight tags.  `t05` and `t06` are on the same commit (2023-05-05);
the others are on commits of eleven other months, `t00` on the latest. -/
def repoThirteen : Repository where
  Tags := .refs [⟨"t00", "c11"⟩, ⟨"t01", "c0"⟩, ⟨"t02", "c1"⟩, ⟨"t03", "c2"⟩, ⟨"t04", "c3"⟩,
    ⟨"t05", "c4"⟩, ⟨"t06", "c4"⟩, ⟨"t07", "c5"⟩, ⟨"t08", "c6"⟩, ⟨"t09", "c7"⟩,
    ⟨"t10", "c8"⟩, ⟨"t11", "c9"⟩, ⟨"t12", "c10"⟩]
  CommitObject := fun h =>
    match ["c0", "c1", "c2", "c3", "c4", "c5", "c6", "c7", "c8", "c9", "c10", "c11"].indexOf? h with
    | some k => .ok ⟨h, ⟨1672531200 + 2678400 * (k : Nat), 0⟩⟩
    | none => .error "object not found"
  TagObject := fun _ => .notFound

/-- The records of `repoTie` after the loop of `getTags`, before numbering. -/
def recordsTie : List tag :=
  (resolveLoop repoTie ([⟨"a", "c1"⟩, ⟨"b", "c1"⟩].map newTag) none).1

/-- Two lightweight tags on commits whose committer times are the largest and the
smallest `int64`, enumerated as `newest`, `oldest`. -/
def repoEnds : Repository where
  Tags := .refs [⟨"newest", "c1"⟩, ⟨"oldest", "c2"⟩]
  CommitObject := fun h =>
    if h = "c1" then .ok ⟨"c1", ⟨9223372036854775807, 0⟩⟩
    else if h = "c2" then .ok ⟨"c2", ⟨-9223372036854775808, 0⟩⟩
    else .error "object not found"
  TagObject := fun _ => .notFound

/-- The repository `repoEnds` with its tags enumerated in the other order. -/
def repoEndsRev : Repository :=
  { repoEnds with Tags := .refs [⟨"oldest", "c2"⟩, ⟨"newest", "c1"⟩] }

/-- The records of `repoEnds` after the loop of `getTags`, before numbering. -/
def recordsEnds : List tag :=
  (resolveLoop repoEnds ([⟨"newest", "c1"⟩, ⟨"oldest", "c2"⟩].map newTag) none).1

/-- Two lightweight tags on `commitJune`, `release` and one that already has the name
`v2024.6.1`, enumerated in that order. -/
def repoNameTaken : Repository where
  Tags := .refs [⟨"release", "c1"⟩, ⟨"v2024.6.1", "c1"⟩]
  CommitObject := fun h => if h = "c1" then .ok commitJune else .error "object not found"
  TagObject := fun _ => .notFound

/-- Four records before numbering: `a` and `b` on one commit of June 2024, `c` and `d` on
one commit of January 2023. -/
def recordsTwoTies : List tag :=
  [recordAt "a" 1717977600, recordAt "b" 1717977600, recordAt "c" 1672876800,
    recordAt "d" 1672876800]
/-! ## The calendar -/


theorem yearDay_aux (d a b0 b e f0 f : Int) (ha : a = d / 146097)
    (hb0 : b0 = (d - 146097 * a) / 36524) (hb : b = b0 - b0 / 4)
    (he : e = (d - 146097 * a - 36524 * b) / 1461)
    (hf0 : f0 = (d - 146097 * a - 36524 * b - 1461 * e) / 365) (hf : f = f0 - f0 / 4) :
    (400 * a + 100 * b + 4 * e + f) / 4 = 100 * a + 25 * b + e ∧
    (400 * a + 100 * b + 4 * e + f) / 100 = 4 * a + b ∧
    (400 * a + 100 * b + 4 * e + f) / 400 = a ∧
    0 ≤ b ∧ b ≤ 3 ∧ 0 ≤ e ∧ e ≤ 24 ∧ 0 ≤ f ∧ f ≤ 3 ∧
    0 ≤ d - 146097 * a - 36524 * b - 1461 * e - 365 * f ∧
    d - 146097 * a - 36524 * b - 1461 * e - 365 * f ≤ 365 ∧
    (d - 146097 * a - 36524 * b - 1461 * e - 365 * f = 365 → f = 3 ∧ (e = 24 → b = 3)) := by
  have h1 : 0 ≤ d - 146097 * a ∧ d - 146097 * a ≤ 146096 := by omega
  have hb0r : b0 = 0 ∨ b0 = 1 ∨ b0 = 2 ∨ b0 = 3 ∨ b0 = 4 := by omega
  have hbr : 0 ≤ b ∧ b ≤ 3 := by omega
  have h2 : 0 ≤ d - 146097 * a - 36524 * b ∧ d - 146097 * a - 36524 * b ≤ 36524 := by
    rcases hb0r with h | h | h | h | h <;> omega
  have h2' : b ≤ 2 → d - 146097 * a - 36524 * b ≤ 36523 := by
    rcases hb0r with h | h | h | h | h <;> omega
  have her : 0 ≤ e ∧ e ≤ 24 := by omega
  have h3 : 0 ≤ d - 146097 * a - 36524 * b - 1461 * e ∧
      d - 146097 * a - 36524 * b - 1461 * e ≤ 1460 := by omega
  have hf0r : f0 = 0 ∨ f0 = 1 ∨ f0 = 2 ∨ f0 = 3 ∨ f0 = 4 := by omega
  have hfr : 0 ≤ f ∧ f ≤ 3 := by omega
  have h4 : 0 ≤ d - 146097 * a - 36524 * b - 1461 * e - 365 * f ∧
      d - 146097 * a - 36524 * b - 1461 * e - 365 * f ≤ 365 := by
    rcases hf0r with h | h | h | h | h <;> omega
  refine ⟨by omega, by omega, by omega, hbr.1, hbr.2, her.1, her.2, hfr.1, hfr.2, h4.1, h4.2, ?_⟩
  intro h365
  rcases hf0r with h | h | h | h | h <;> omega

theorem yearDay_spec (d : Int) :
    d = 365 * ((yearDay d).1 - 1) + ((yearDay d).1 - 1) / 4 - ((yearDay d).1 - 1) / 100
          + ((yearDay d).1 - 1) / 400 + (yearDay d).2 ∧
      0 ≤ (yearDay d).2 ∧ (yearDay d).2 ≤ 365 ∧
      ((yearDay d).2 = 365 → isLeap (yearDay d).1 = true) := by
  simp only [yearDay, isLeap, Bool.and_eq_true, Bool.or_eq_true, beq_iff_eq, bne_iff_ne, ne_eq]
  generalize ha : d / 146097 = a
  generalize hb0 : (d - 146097 * a) / 36524 = b0
  generalize he : (d - 146097 * a - 36524 * (b0 - b0 / 4)) / 1461 = e
  generalize hf0 : (d - 146097 * a - 36524 * (b0 - b0 / 4) - 1461 * e) / 365 = f0
  obtain ⟨q4, q100, q400, hb0, hb3, he0, he24, hf0, hf3, hd0, hd365, hleap⟩ :=
    yearDay_aux d a b0 (b0 - b0 / 4) e f0 (f0 - f0 / 4) ha.symm hb0.symm rfl he.symm hf0.symm rfl
  have hY : 1 + 400 * a + 100 * (b0 - b0 / 4) + 4 * e + (f0 - f0 / 4) - 1 =
      400 * a + 100 * (b0 - b0 / 4) + 4 * e + (f0 - f0 / 4) := by omega
  rw [hY, q4, q100, q400]
  refine ⟨by omega, by omega, by omega, ?_⟩
  intro h
  have h2 := hleap (by omega)
  refine ⟨by omega, ?_⟩
  by_cases h24 : e = 24
  · right; have := h2.2 h24; omega
  · left; omega

theorem daysBefore_table :
    daysBefore 0 = 0 ∧ daysBefore 1 = 31 ∧ daysBefore 2 = 59 ∧ daysBefore 3 = 90 ∧
      daysBefore 4 = 120 ∧ daysBefore 5 = 151 ∧ daysBefore 6 = 181 ∧ daysBefore 7 = 212 ∧
      daysBefore 8 = 243 ∧ daysBefore 9 = 273 ∧ daysBefore 10 = 304 ∧ daysBefore 11 = 334 ∧
      daysBefore 12 = 365 := by
  decide

theorem monthOf_spec (year yday : Int) (h0 : 0 ≤ yday) (h1 : yday ≤ 365)
    (hl : yday = 365 → isLeap year = true) :
    1 ≤ monthOf year yday ∧ monthOf year yday ≤ 12 ∧
      monthStart (isLeap year) (monthOf year yday) ≤ yday ∧
      yday < monthStart (isLeap year) (monthOf year yday) + 31 ∧
      yday < monthStart (isLeap year) (monthOf year yday + 1) := by
  obtain ⟨t0, t1, t2, t3, t4, t5, t6, t7, t8, t9, t10, t11, t12⟩ := daysBefore_table
  simp only [monthOf, monthStart]
  generalize isLeap year = leap at *
  cases leap
  · have h365 : yday ≤ 364 := by
      by_contra hc
      have : yday = 365 := by omega
      exact absurd (hl this) (by simp)
    obtain ⟨k, hk⟩ : ∃ k, k = yday / 31 := ⟨_, rfl⟩
    have hk0 : 0 ≤ k := by omega
    have hk11 : k ≤ 11 := by omega
    simp only [Bool.false_eq_true, false_and, if_false, ← hk]
    interval_cases k <;>
      simp only [Int.reduceAdd, Int.reduceSub, t0, t1, t2, t3, t4, t5, t6, t7, t8, t9, t10,
        t11, t12] <;> split_ifs <;>
      simp only [Int.reduceAdd, Int.reduceSub, t0, t1, t2, t3, t4, t5, t6, t7, t8, t9, t10,
        t11, t12] <;> omega
  · by_cases h59 : yday = 59
    · subst h59
      simp [t1, t2]
    · by_cases hgt : yday > 59
      · obtain ⟨k, hk⟩ : ∃ k, k = (yday - 1) / 31 := ⟨_, rfl⟩
        have hk0 : 0 ≤ k := by omega
        have hk11 : k ≤ 11 := by omega
        simp only [true_and, h59, if_false, hgt, if_true, ← hk]
        interval_cases k <;>
          simp only [Int.reduceAdd, Int.reduceSub, t0, t1, t2, t3, t4, t5, t6, t7, t8, t9, t10,
            t11, t12] <;> split_ifs <;>
          simp only [Int.reduceAdd, Int.reduceSub, t0, t1, t2, t3, t4, t5, t6, t7, t8, t9, t10,
            t11, t12] <;> omega
      · obtain ⟨k, hk⟩ : ∃ k, k = yday / 31 := ⟨_, rfl⟩
        have hk0 : 0 ≤ k := by omega
        have hk11 : k ≤ 1 := by omega
        simp only [true_and, h59, if_false, hgt, ← hk]
        interval_cases k <;>
          simp only [Int.reduceAdd, Int.reduceSub, t0, t1, t2, t3, t4, t5, t6, t7, t8, t9, t10,
            t11, t12] <;> split_ifs <;>
          simp only [Int.reduceAdd, Int.reduceSub, t0, t1, t2, t3, t4, t5, t6, t7, t8, t9, t10,
            t11, t12] <;> omega

/-! ## The apply loop -/

theorem applyLoop_no_panic {σ : Type} (gw : RefStore σ) (deleteOld : Bool) :
    ∀ (tags : List tag) (s : σ), (∀ t ∈ tags, t.commit.isSome = true) →
      (applyLoop gw deleteOld tags s).1 = false := by
  intro tags
  induction tags with
  | nil => intro s _; rfl
  | cons t ts ih =>
    intro s h
    have ht := h t (List.mem_cons_self _ _)
    have hts : ∀ u ∈ ts, u.commit.isSome = true := fun u hu => h u (List.mem_cons_of_mem _ hu)
    cases hc : t.commit with
    | none => rw [hc] at ht; exact absurd ht (by simp)
    | some c =>
      cases deleteOld <;> simp [applyLoop, hc, ih _ hts]

theorem applyLoop_createCalls {σ : Type} (gw : RefStore σ) (deleteOld : Bool) :
    ∀ (tags : List tag) (s : σ), (∀ t ∈ tags, t.commit.isSome = true) →
      createCalls (applyLoop gw deleteOld tags s).2.1 =
        tags.filterMap (fun t => t.commit.map (fun c => (t.to_, c.Hash, t.message))) := by
  intro tags
  induction tags with
  | nil => intro s _; rfl
  | cons t ts ih =>
    intro s h
    have ht := h t (List.mem_cons_self _ _)
    have hts : ∀ u ∈ ts, u.commit.isSome = true := fun u hu => h u (List.mem_cons_of_mem _ hu)
    cases hc : t.commit with
    | none => rw [hc] at ht; exact absurd ht (by simp)
    | some c =>
      cases deleteOld <;> simp [applyLoop, hc, createCalls, ih _ hts]

/-- With `-delete`, the apply loop calls `DeleteTag` for every record of the plan, in
plan order, whatever `CreateTag` returned for it. -/
theorem applyLoop_deleteCalls {σ : Type} (gw : RefStore σ) :
    ∀ (tags : List tag) (s : σ), (∀ t ∈ tags, t.commit.isSome = true) →
      deleteCalls (applyLoop gw true tags s).2.1 = tags.map (fun t => t.from_) := by
  intro tags
  induction tags with
  | nil => intro s _; rfl
  | cons t ts ih =>
    intro s h
    have ht := h t (List.mem_cons_self _ _)
    have hts : ∀ u ∈ ts, u.commit.isSome = true := fun u hu => h u (List.mem_cons_of_mem _ hu)
    cases hc : t.commit with
    | none => rw [hc] at ht; exact absurd ht (by simp)
    | some c => simp [applyLoop, hc, deleteCalls, ih _ hts]

/-- A run with `-delete` on a repository whose tags `release` and `v2024.6.1` stand on
the same commit: `release` is to become `v2024.6.1`, `CreateTag` fails because that tag
exists, and `main` still deletes `release`; then it creates `v2024.6.2` and deletes
`v2024.6.1`. -/
theorem main_deletes_when_name_taken :
    (main smallRuntime repoNameTaken nameStore false true ["release", "v2024.6.1"]).calls =
        [Call.CreateTag "v2024.6.1" "c1" "converted from tag release" false,
         Call.DeleteTag "release" true,
         Call.CreateTag "v2024.6.2" "c1" "converted from tag v2024.6.1" true,
         Call.DeleteTag "v2024.6.1" true] ∧
      (main smallRuntime repoNameTaken nameStore false true ["release", "v2024.6.1"]).store =
        ["v2024.6.2"] ∧
      (main smallRuntime repoNameTaken nameStore false true ["release", "v2024.6.1"]).exit =
        Exit.done := by
  decide

/-- C3 (the code departs from it): the tag `release` is to become `v2024.6.1`, a name
the store already holds, so `CreateTag` fails; run with `-delete`, `main` still calls
`DeleteTag` for `release`, the call succeeds and the store no longer holds the
original tag. -/
theorem main_deletes_after_failed_create :
    (main smallRuntime repoRelease nameStore false true ["release", "v2024.6.1"]).calls =
        [Call.CreateTag "v2024.6.1" "c1" "converted from tag release" false,
         Call.DeleteTag "release" true] ∧
      (main smallRuntime repoRelease nameStore false true ["release", "v2024.6.1"]).store =
        ["v2024.6.1"] ∧
      (main smallRuntime repoRelease nameStore false true ["release", "v2024.6.1"]).exit =
        Exit.done := by
  decide


theorem yearDay_same_month_close (d1 d2 : Int) (hy : (yearDay d1).1 = (yearDay d2).1)
    (hm : monthOf (yearDay d1).1 (yearDay d1).2 = monthOf (yearDay d2).1 (yearDay d2).2) :
    d1 - d2 ≤ 30 ∧ d2 - d1 ≤ 30 := by
  obtain ⟨e1, l1, u1, p1⟩ := yearDay_spec d1
  obtain ⟨e2, l2, u2, p2⟩ := yearDay_spec d2
  obtain ⟨-, -, a1, b1, -⟩ := monthOf_spec _ _ l1 u1 p1
  obtain ⟨-, -, a2, b2, -⟩ := monthOf_spec _ _ l2 u2 p2
  rw [← hm, ← hy] at a2 b2
  rw [← hy] at e2
  omega

/-- The modulus of the absolute seconds is that of a `uint64`. -/
theorem Time.absSec_uint64 (t : Time) :
    t.absSec = (t.unix + t.offset + 9223372028741760000) % 2 ^ 64 ∧
      0 ≤ t.absSec ∧ t.absSec < 2 ^ 64 := by
  unfold Time.absSec unixToAbsolute
  omega

/-- The absolute seconds of a time in the `int64` range wrap around exactly when the
time lies before the absolute epoch on the clock of its zone; they are then `2 ^ 64`
seconds ahead. -/
theorem Time.absSec_eq (t : Time) (v : t.Valid) :
    (-9223372028741760000 ≤ t.unix + t.offset →
        t.absSec = t.unix + t.offset + 9223372028741760000) ∧
      (t.unix + t.offset < -9223372028741760000 →
        t.absSec = t.unix + t.offset + 9223372028741760000 + 2 ^ 64) := by
  unfold Time.Valid at v
  unfold Time.absSec unixToAbsolute
  constructor <;> intro h <;> omega

/-- Without wrap-around the day count is that of the civil day of `unix + offset`. -/
theorem Time.days_eq (t : Time) (v : t.Valid) (w : t.NoWrap) :
    t.days = (t.unix + t.offset) / 86400 + 719162 := by
  unfold Time.NoWrap at w
  have h := (Time.absSec_eq t v).1 w
  unfold Time.days
  rw [h]
  omega

theorem Time.same_month_close (s t : Time) (hy : s.Year = t.Year) (hm : s.Month = t.Month) :
    s.absSec - t.absSec < 2678400 ∧ t.absSec - s.absSec < 2678400 := by
  have h := yearDay_same_month_close s.days t.days hy hm
  simp only [Time.days] at h
  omega

theorem resolveLoop_fst (repo : Repository) :
    ∀ (tags : List tag) (err : Option String),
      (resolveLoop repo tags err).1 = tags.map (fun t => (resolveStep repo t).1) := by
  intro tags
  induction tags with
  | nil => intro err; rfl
  | cons t ts ih => intro err; simp [resolveLoop, ih]

theorem resolveLoop_snd (repo : Repository) :
    ∀ (tags : List tag) (err : Option String),
      (resolveLoop repo tags err).2 =
        match tags.getLast? with
        | none => err
        | some t => (resolveStep repo t).2 := by
  intro tags
  induction tags with
  | nil => intro err; rfl
  | cons t ts ih =>
    intro err
    simp only [resolveLoop, ih]
    cases ts with
    | nil => rfl
    | cons u us =>
      rw [List.getLast?_cons_cons]
      cases h : (u :: us).getLast? with
      | none => simp at h
      | some v => rfl

/-! ## Collecting the records -/

theorem insertBack_perm (cmp : tag → tag → Int) (x : tag) :
    ∀ l : List tag, (insertBack cmp x l).Perm (x :: l) := by
  intro l
  induction l with
  | nil => exact List.Perm.refl _
  | cons y ys ih =>
    simp only [insertBack]
    split_ifs
    · exact ((ih.cons y).trans (List.Perm.swap x y ys))
    · exact List.Perm.refl _

theorem foldl_insertBack_perm (cmp : tag → tag → Int) :
    ∀ (l acc : List tag),
      (l.foldl (fun sortedRev x => insertBack cmp x sortedRev) acc).Perm (acc ++ l) := by
  intro l
  induction l with
  | nil => intro acc; simp
  | cons x xs ih =>
    intro acc
    simp only [List.foldl_cons]
    refine (ih _).trans ?_
    refine ((insertBack_perm cmp x acc).append_right xs).trans ?_
    simpa using (@List.perm_middle tag x acc xs).symm

theorem insertionSortCmpFunc_perm (cmp : tag → tag → Int) (l : List tag) :
    (insertionSortCmpFunc cmp l).Perm l := by
  unfold insertionSortCmpFunc
  exact (List.reverse_perm _).trans (by simpa using foldl_insertBack_perm cmp l [])

theorem insertBack_sorted (cmp : tag → tag → Int) (key : tag → Int) (x : tag) :
    ∀ l : List tag, (∀ y ∈ l, (cmp x y < 0 ↔ key x < key y)) →
      l.Pairwise (fun a b => key b ≤ key a) →
      (insertBack cmp x l).Pairwise (fun a b => key b ≤ key a) := by
  intro l
  induction l with
  | nil => intro _ _; simp [insertBack]
  | cons y ys ih =>
    intro hc hs
    have hy := hc y (List.mem_cons_self _ _)
    have hys : ∀ z ∈ ys, (cmp x z < 0 ↔ key x < key z) :=
      fun z hz => hc z (List.mem_cons_of_mem _ hz)
    rw [List.pairwise_cons] at hs
    simp only [insertBack]
    split_ifs with h
    · rw [List.pairwise_cons]
      refine ⟨?_, ih hys hs.2⟩
      intro z hz
      rcases List.mem_cons.1 ((insertBack_perm cmp x ys).subset hz) with rfl | hz
      · exact le_of_lt (hy.1 h)
      · exact hs.1 z hz
    · have hxy : key y ≤ key x := not_lt.1 (fun hlt => h (hy.2 hlt))
      rw [List.pairwise_cons]
      refine ⟨?_, List.pairwise_cons.2 hs⟩
      intro z hz
      rcases List.mem_cons.1 hz with rfl | hz
      · exact hxy
      · exact le_trans (hs.1 z hz) hxy

theorem foldl_insertBack_sorted (cmp : tag → tag → Int) (key : tag → Int) :
    ∀ (l acc : List tag),
      (∀ a ∈ acc ++ l, ∀ b ∈ acc ++ l, (cmp a b < 0 ↔ key a < key b)) →
      acc.Pairwise (fun a b => key b ≤ key a) →
      (l.foldl (fun sortedRev x => insertBack cmp x sortedRev) acc).Pairwise
        (fun a b => key b ≤ key a) := by
  intro l
  induction l with
  | nil => intro acc _ hs; simpa using hs
  | cons x xs ih =>
    intro acc hc hs
    simp only [List.foldl_cons]
    apply ih
    · intro a ha b hb
      have sub : ∀ z, z ∈ insertBack cmp x acc ++ xs → z ∈ acc ++ x :: xs := by
        intro z hz
        rcases List.mem_append.1 hz with hz | hz
        · rcases List.mem_cons.1 ((insertBack_perm cmp x acc).subset hz) with rfl | hz
          · simp
          · simp [hz]
        · simp [hz]
      exact hc a (sub a ha) b (sub b hb)
    · apply insertBack_sorted cmp key x acc _ hs
      intro y hy
      exact hc x (by simp) y (by simp [hy])

theorem insertionSortCmpFunc_sorted (cmp : tag → tag → Int) (l : List tag) (key : tag → Int)
    (h : ∀ a ∈ l, ∀ b ∈ l, (cmp a b < 0 ↔ key a < key b)) :
    (insertionSortCmpFunc cmp l).Pairwise (fun a b => key a ≤ key b) := by
  unfold insertionSortCmpFunc
  rw [List.pairwise_reverse]
  exact foldl_insertBack_sorted cmp key l [] (by simpa using h) List.Pairwise.nil

theorem smallRuntime_lawful : smallRuntime.Lawful where
  sortFunc_perm := insertionSortCmpFunc_perm
  sortFunc_sorted := insertionSortCmpFunc_sorted
  mapRange_perm := fun m => List.Perm.refl m

/-! ## `sortTagsByDate` -/

theorem sortTagsByDate_perm (rt : Runtime) (hrt : rt.Lawful) (tags out : List tag)
    (h : sortTagsByDate rt tags = some out) : out.Perm tags := by
  unfold sortTagsByDate at h
  split_ifs at h
  cases h
  exact hrt.sortFunc_perm _ _

theorem sortTagsByDate_some (rt : Runtime) (tags : List tag)
    (h : ∀ t ∈ tags, t.commit.isSome = true) :
    sortTagsByDate rt tags = some (rt.sortFunc cmpByDate tags) := by
  unfold sortTagsByDate
  rw [if_neg]
  rintro ⟨-, hany⟩
  obtain ⟨t, ht, hn⟩ := List.any_eq_true.1 hany
  have := h t ht
  cases hc : t.commit <;> simp_all

theorem sortTagsByDate_short (rt : Runtime) (tags : List tag) (h : tags.length ≤ 1) :
    sortTagsByDate rt tags = some (rt.sortFunc cmpByDate tags) := by
  unfold sortTagsByDate
  rw [if_neg]
  rintro ⟨h2, -⟩
  omega

/-! ## Formatting -/

theorem digitChar_facts :
    ∀ d, d < 10 → digitChar d ≠ '.' ∧ digitChar d ≠ '-' ∧ (digitChar d).toNat - 48 = d := by
  decide

theorem decimalAux_mem (c : Char) :
    ∀ (fuel n : Nat) (acc : List Char), c ∈ decimalAux fuel n acc →
      c ∈ acc ∨ ∃ d, d < 10 ∧ c = digitChar d := by
  intro fuel
  induction fuel with
  | zero => intro n acc h; exact Or.inl h
  | succ f ih =>
    intro n acc h
    simp only [decimalAux] at h
    split_ifs at h with hn
    · rcases List.mem_cons.1 h with rfl | h
      · exact Or.inr ⟨n, hn, rfl⟩
      · exact Or.inl h
    · rcases ih _ _ h with h | h
      · rcases List.mem_cons.1 h with rfl | h
        · exact Or.inr ⟨n % 10, Nat.mod_lt _ (by decide), rfl⟩
        · exact Or.inl h
      · exact Or.inr h

theorem decimal_no_dot (n : Nat) : '.' ∉ (decimal n).data := by
  intro h
  rcases decimalAux_mem '.' _ _ _ h with h | ⟨d, hd, h⟩
  · simp at h
  · exact (digitChar_facts d hd).1 h.symm

theorem decimal_no_minus (n : Nat) : '-' ∉ (decimal n).data := by
  intro h
  rcases decimalAux_mem '-' _ _ _ h with h | ⟨d, hd, h⟩
  · simp at h
  · exact (digitChar_facts d hd).2.1 h.symm

theorem decimalAux_value :
    ∀ (fuel n : Nat) (acc : List Char), n < fuel →
      (decimalAux fuel n acc).foldl (fun a c => 10 * a + (c.toNat - 48)) 0 =
        acc.foldl (fun a c => 10 * a + (c.toNat - 48)) n := by
  intro fuel
  induction fuel with
  | zero => intro n acc h; omega
  | succ f ih =>
    intro n acc h
    simp only [decimalAux]
    split_ifs with hn
    · simp [List.foldl_cons, (digitChar_facts n hn).2.2]
    · rw [ih _ _ (by omega)]
      simp only [List.foldl_cons]
      rw [(digitChar_facts (n % 10) (Nat.mod_lt _ (by decide))).2.2]
      congr 1
      omega

theorem decimal_injective (a b : Nat) (h : decimal a = decimal b) : a = b := by
  have ha := decimalAux_value (a + 1) a [] (by omega)
  have hb := decimalAux_value (b + 1) b [] (by omega)
  have hd : decimalAux (a + 1) a [] = decimalAux (b + 1) b [] := by
    simpa [decimal] using congrArg String.data h
  rw [hd, hb] at ha
  simpa using ha.symm

theorem append_sep_inj (c : Char) :
    ∀ (l1 l2 r1 r2 : List Char), c ∉ r1 → c ∉ r2 → l1 ++ c :: r1 = l2 ++ c :: r2 →
      l1 = l2 ∧ r1 = r2 := by
  have key : ∀ (l r1 r2 : List Char), c ∉ r1 → c ∉ r2 →
      l ++ c :: r1 = r2 → False := by
    intro l r1 r2 _ h2 h
    apply h2
    rw [← h]
    simp
  intro l1
  induction l1 with
  | nil =>
    intro l2 r1 r2 h1 h2 h
    cases l2 with
    | nil => simpa using h
    | cons y ys =>
      simp only [List.nil_append, List.cons_append, List.cons.injEq] at h
      exact (key ys r2 r1 h2 h1 h.2.symm).elim
  | cons x xs ih =>
    intro l2 r1 r2 h1 h2 h
    cases l2 with
    | nil =>
      simp only [List.nil_append, List.cons_append, List.cons.injEq] at h
      exact (key xs r1 r2 h1 h2 h.2).elim
    | cons y ys =>
      simp only [List.cons_append, List.cons.injEq] at h
      obtain ⟨e1, e2⟩ := ih ys r1 r2 h1 h2 h.2
      exact ⟨by rw [h.1, e1], e2⟩

/-- A name with its revision determines both: `k ++ "." ++ decimal a` splits at its
last dot. -/
theorem revision_name_inj (k1 k2 : String) (a b : Nat)
    (h : k1 ++ ("." ++ decimal a) = k2 ++ ("." ++ decimal b)) : k1 = k2 ∧ a = b := by
  have hd : k1.data ++ '.' :: (decimal a).data = k2.data ++ '.' :: (decimal b).data := by
    simpa using congrArg String.data h
  obtain ⟨e1, e2⟩ := append_sep_inj '.' _ _ _ _ (decimal_no_dot a) (decimal_no_dot b) hd
  exact ⟨String.ext e1, decimal_injective a b (String.ext e2)⟩

/-! ## The name map -/

theorem keysOf_snoc (pre : List tag) (t : tag) :
    keysOf (pre ++ [t]) = if t.to_ ∈ keysOf pre then keysOf pre else keysOf pre ++ [t.to_] := by
  simp [keysOf, List.foldl_append]

theorem buildTagMap_snoc (pre : List tag) (t : tag) :
    buildTagMap (pre ++ [t]) = mapAppend (buildTagMap pre) t.to_ t := by
  simp [buildTagMap, List.foldl_append]

theorem mem_keysOf (k : String) : ∀ tags : List tag, k ∈ keysOf tags ↔ ∃ t ∈ tags, t.to_ = k := by
  intro tags
  induction tags using List.reverseRecOn with
  | nil => simp [keysOf]
  | append_singleton pre t ih =>
    rw [keysOf_snoc]
    split_ifs with h
    · constructor
      · intro hk
        obtain ⟨u, hu, e⟩ := ih.1 hk
        exact ⟨u, by simp [hu], e⟩
      · rintro ⟨u, hu, e⟩
        rcases List.mem_append.1 hu with hu | hu
        · exact ih.2 ⟨u, hu, e⟩
        · have : u = t := by simpa using hu
          subst this
          rw [← e]; exact h
    · rw [List.mem_append]
      constructor
      · rintro (hk | hk)
        · obtain ⟨u, hu, e⟩ := ih.1 hk
          exact ⟨u, by simp [hu], e⟩
        · exact ⟨t, by simp, (List.mem_singleton.1 hk).symm⟩
      · rintro ⟨u, hu, e⟩
        rcases List.mem_append.1 hu with hu | hu
        · exact Or.inl (ih.2 ⟨u, hu, e⟩)
        · have : u = t := by simpa using hu
          subst this
          exact Or.inr (by simp [e])

theorem keysOf_nodup : ∀ tags : List tag, (keysOf tags).Nodup := by
  intro tags
  induction tags using List.reverseRecOn with
  | nil => simp [keysOf]
  | append_singleton pre t ih =>
    rw [keysOf_snoc]
    split_ifs with h
    · exact ih
    · exact List.Nodup.append ih (List.nodup_singleton _) (by simpa using h)

theorem mapAppend_groups (tags : List tag) (t : tag) :
    ∀ ks : List String, ks.Nodup →
      (t.to_ ∉ ks → tags.filter (fun u => u.to_ = t.to_) = []) →
      mapAppend (ks.map (groupOf tags)) t.to_ t =
        (if t.to_ ∈ ks then ks else ks ++ [t.to_]).map (groupOf (tags ++ [t])) := by
  intro ks
  induction ks with
  | nil =>
    intro _ h
    simp [mapAppend, groupOf, h (by simp)]
  | cons k ks ih =>
    intro hnd h
    rw [List.nodup_cons] at hnd
    simp only [List.map_cons, mapAppend, groupOf]
    by_cases hk : k = t.to_
    · subst hk
      simp only [if_true, List.mem_cons, true_or, List.map_cons, List.filter_append]
      congr 1
      · simp [groupOf, List.filter_append]
      · apply List.map_congr_left
        intro k' hk'
        have : k' ≠ t.to_ := fun e => hnd.1 (e ▸ hk')
        simp [groupOf, List.filter_append, Ne.symm this]
    · have ih' := ih hnd.2 (fun hn => h (by simp [hn, Ne.symm hk]))
      simp only [groupOf] at ih'
      rw [if_neg hk, ih']
      have hk' : ¬ t.to_ = k := fun e => hk e.symm
      by_cases hm : t.to_ ∈ ks
      · simp [hm, List.filter_append, hk', groupOf]
      · simp [hm, List.filter_append, hk', groupOf]

/-- The map that the first loop of `calculateTagRevision` builds: one entry per
distinct name, holding the records with that name in input order. -/
theorem buildTagMap_eq : ∀ tags : List tag,
    buildTagMap tags = (keysOf tags).map (groupOf tags) := by
  intro tags
  induction tags using List.reverseRecOn with
  | nil => simp [buildTagMap, keysOf]
  | append_singleton pre t ih =>
    rw [buildTagMap_snoc, ih, keysOf_snoc]
    apply mapAppend_groups pre t _ (keysOf_nodup pre)
    intro hn
    rw [List.filter_eq_nil_iff]
    intro u hu
    have : u.to_ ≠ t.to_ := fun e => hn ((mem_keysOf _ _).2 ⟨u, hu, e⟩)
    simpa using this

/-! ## Revision numbering -/

theorem renumberFrom_names (k : String) :
    ∀ (s : List tag) (n : Nat), (∀ t ∈ s, t.to_ = k) →
      (renumberFrom n s).map (fun t => t.to_) =
        (List.range s.length).map (fun i => k ++ ("." ++ decimal (n + i + 1))) := by
  intro s
  induction s with
  | nil => intro n _; rfl
  | cons t ts ih =>
    intro n h
    have ht : t.to_ = k := h t (List.mem_cons_self _ _)
    have hts : ∀ u ∈ ts, u.to_ = k := fun u hu => h u (List.mem_cons_of_mem _ hu)
    simp only [renumberFrom, List.map_cons, List.length_cons, List.range_succ_eq_map,
      List.map_map, ih (n + 1) hts, ht, Nat.add_zero]
    congr 1
    apply List.map_congr_left
    intro i _
    simp only [Function.comp]
    congr 3
    omega

theorem renumberFrom_frame : ∀ (s : List tag) (n : Nat),
    (renumberFrom n s).map frame = s.map frame := by
  intro s
  induction s with
  | nil => intro n; rfl
  | cons t ts ih => intro n; simp [renumberFrom, ih (n + 1), frame]

theorem revisionLoop_names (rt : Runtime) (hrt : rt.Lawful) :
    ∀ (entries : List (String × List tag)) (out : List tag),
      (∀ e ∈ entries, ∀ t ∈ e.2, t.to_ = e.1) → revisionLoop rt entries = some out →
      out.map (fun t => t.to_) = entries.flatMap revisionNames := by
  intro entries
  induction entries with
  | nil => intro out _ h; simp [revisionLoop] at h; subst h; rfl
  | cons e es ih =>
    intro out hk h
    obtain ⟨k, l⟩ := e
    simp only [revisionLoop] at h
    cases hs : sortTagsByDate rt l with
    | none => simp [hs] at h
    | some sorted =>
      cases hr : revisionLoop rt es with
      | none => simp [hs, hr] at h
      | some rest =>
        simp only [hs, hr, Option.some.injEq] at h
        subst h
        have hp := sortTagsByDate_perm rt hrt l sorted hs
        have hk1 : ∀ t ∈ sorted, t.to_ = k :=
          fun t ht => hk (k, l) (List.mem_cons_self _ _) t (hp.subset ht)
        rw [List.map_append, renumberFrom_names k sorted 0 hk1,
          ih rest (fun e he => hk e (List.mem_cons_of_mem _ he)) hr]
        simp [List.flatMap_cons, revisionNames, hp.length_eq]

theorem revisionLoop_frame (rt : Runtime) (hrt : rt.Lawful) :
    ∀ (entries : List (String × List tag)) (out : List tag),
      revisionLoop rt entries = some out →
      (out.map frame).Perm ((entries.flatMap fun e => e.2).map frame) := by
  intro entries
  induction entries with
  | nil => intro out h; simp [revisionLoop] at h; subst h; simp
  | cons e es ih =>
    intro out h
    obtain ⟨k, l⟩ := e
    simp only [revisionLoop] at h
    cases hs : sortTagsByDate rt l with
    | none => simp [hs] at h
    | some sorted =>
      cases hr : revisionLoop rt es with
      | none => simp [hs, hr] at h
      | some rest =>
        simp only [hs, hr, Option.some.injEq] at h
        subst h
        have hp := sortTagsByDate_perm rt hrt l sorted hs
        simp only [List.map_append, renumberFrom_frame, List.flatMap_cons]
        exact List.Perm.append (hp.map frame) (ih rest hr)

theorem revisionLoop_some (rt : Runtime) :
    ∀ (entries : List (String × List tag)),
      (∀ e ∈ entries, ∀ t ∈ e.2, t.commit.isSome = true) →
      ∃ out, revisionLoop rt entries = some out := by
  intro entries
  induction entries with
  | nil => intro _; exact ⟨[], rfl⟩
  | cons e es ih =>
    intro h
    obtain ⟨k, l⟩ := e
    obtain ⟨rest, hr⟩ := ih (fun e he => h e (List.mem_cons_of_mem _ he))
    have hs := sortTagsByDate_some rt l (h (k, l) (List.mem_cons_self _ _))
    exact ⟨renumberFrom 0 (rt.sortFunc cmpByDate l) ++ rest, by simp [revisionLoop, hs, hr]⟩

theorem revisionNames_nodup (e : String × List tag) : (revisionNames e).Nodup := by
  unfold revisionNames
  refine List.Nodup.map_on ?_ (List.nodup_range _)
  intro i _ j _ h
  have := (revision_name_inj _ _ _ _ h).2
  omega

theorem mem_revisionNames (e : String × List tag) (name : String) :
    name ∈ revisionNames e ↔ ∃ i, i < e.2.length ∧ name = e.1 ++ ("." ++ decimal (i + 1)) := by
  simp [revisionNames, eq_comm]

theorem flatMap_revisionNames_nodup :
    ∀ entries : List (String × List tag), (entries.map Prod.fst).Nodup →
      (entries.flatMap revisionNames).Nodup := by
  intro entries hnd
  rw [List.nodup_flatMap]
  refine ⟨fun e _ => revisionNames_nodup e, ?_⟩
  rw [List.Nodup, List.pairwise_map] at hnd
  refine hnd.imp ?_
  intro a b hab
  intro name ha hb
  obtain ⟨i, -, hi⟩ := (mem_revisionNames a name).1 ha
  obtain ⟨j, -, hj⟩ := (mem_revisionNames b name).1 hb
  exact hab (revision_name_inj _ _ _ _ (hi.symm.trans hj)).1

/-- The entries that the second loop of `calculateTagRevision` visits. -/
theorem mapRange_entries (rt : Runtime) (hrt : rt.Lawful) (tags : List tag) :
    (rt.mapRange (buildTagMap tags)).Perm ((keysOf tags).map (groupOf tags)) := by
  rw [← buildTagMap_eq]
  exact hrt.mapRange_perm _

theorem mapRange_keys_nodup (rt : Runtime) (hrt : rt.Lawful) (tags : List tag) :
    ((rt.mapRange (buildTagMap tags)).map Prod.fst).Nodup := by
  have h := (mapRange_entries rt hrt tags).map Prod.fst
  rw [h.nodup_iff]
  have : (List.map Prod.fst (List.map (groupOf tags) (keysOf tags))) = keysOf tags := by
    rw [List.map_map]
    exact (List.map_congr_left (fun k _ => rfl)).trans (List.map_id _)
  rw [this]
  exact keysOf_nodup tags

theorem mapRange_entry (rt : Runtime) (hrt : rt.Lawful) (tags : List tag)
    (e : String × List tag) (he : e ∈ rt.mapRange (buildTagMap tags)) :
    e.1 ∈ keysOf tags ∧ e = groupOf tags e.1 := by
  have h := (mapRange_entries rt hrt tags).subset he
  obtain ⟨k, hk, rfl⟩ := List.mem_map.1 h
  exact ⟨hk, rfl⟩

theorem mapRange_entry_names (rt : Runtime) (hrt : rt.Lawful) (tags : List tag) :
    ∀ e ∈ rt.mapRange (buildTagMap tags), ∀ t ∈ e.2, t.to_ = e.1 := by
  intro e he t ht
  rw [(mapRange_entry rt hrt tags e he).2] at ht
  simpa [groupOf] using (List.mem_filter.1 ht).2

theorem mapRange_entry_mem (rt : Runtime) (hrt : rt.Lawful) (tags : List tag) :
    ∀ e ∈ rt.mapRange (buildTagMap tags), ∀ t ∈ e.2, t ∈ tags := by
  intro e he t ht
  rw [(mapRange_entry rt hrt tags e he).2] at ht
  exact (List.mem_filter.1 ht).1

theorem calculateTagRevision_some (rt : Runtime) (hrt : rt.Lawful) (tags : List tag)
    (h : ∀ t ∈ tags, t.commit.isSome = true) :
    ∃ out, calculateTagRevision rt tags = some out :=
  revisionLoop_some rt _ (fun e he t ht => h t (mapRange_entry_mem rt hrt tags e he t ht))

theorem calculateTagRevision_nodup (rt : Runtime) (hrt : rt.Lawful) (tags out : List tag)
    (h : calculateTagRevision rt tags = some out) : (out.map (fun t => t.to_)).Nodup := by
  rw [revisionLoop_names rt hrt _ out (mapRange_entry_names rt hrt tags) h]
  exact flatMap_revisionNames_nodup _ (mapRange_keys_nodup rt hrt tags)

theorem planOf_nodup (rt : Runtime) (hrt : rt.Lawful) (tags out : List tag)
    (h : planOf rt tags = some out) : (out.map (fun t => t.to_)).Nodup := by
  unfold planOf at h
  cases hc : calculateTagRevision rt tags with
  | none => simp [hc] at h
  | some tagged =>
    simp only [hc] at h
    have hp := (sortTagsByDate_perm rt hrt tagged out h).map (fun t => t.to_)
    exact hp.nodup_iff.2 (calculateTagRevision_nodup rt hrt _ tagged hc)

/-- C1: whatever records `calculateTagRevision` is given (any number of them with the
same name, with or without a commit), the names of the records it returns are pairwise
distinct; it does return when every record has a commit; and a plan that `getTags`
returns never holds two records with the same target name. -/
theorem target_names_unique (rt : Runtime) (hrt : rt.Lawful) :
    (∀ tags out, calculateTagRevision rt tags = some out → (out.map (fun t => t.to_)).Nodup) ∧
    (∀ tags, (∀ t ∈ tags, t.commit.isSome = true) →
      ∃ out, calculateTagRevision rt tags = some out) ∧
    (∀ repo plan err, getTags rt repo = some (plan, err) →
      (plan.map (fun t => t.to_)).Nodup) := by
  refine ⟨calculateTagRevision_nodup rt hrt, calculateTagRevision_some rt hrt, ?_⟩
  intro repo plan err h
  unfold getTags at h
  cases hT : repo.Tags with
  | tagsFailed e => simp [hT] at h; rw [h.1]; simp
  | forEachFailed e => simp [hT] at h; rw [h.1]; simp
  | refs l =>
    simp only [hT] at h
    cases hp : planOf rt (resolveLoop repo (l.map newTag) none).1 with
    | none => simp [hp] at h
    | some out =>
      simp only [hp, Option.some.injEq, Prod.mk.injEq] at h
      rw [← h.1]
      exact planOf_nodup rt hrt _ out hp

/-! ## Order of the plan -/

theorem wrapInt64_eq (x : Int) (h1 : -2 ^ 63 ≤ x) (h2 : x < 2 ^ 63) : wrapInt64 x = x := by
  unfold wrapInt64; omega

/-- Where the subtraction does not overflow, the comparison of `sortTagsByDate` is
negative exactly for an earlier commit. -/
theorem cmpByDate_neg_iff (a b : tag) (h1 : -2 ^ 63 ≤ unixOf a - unixOf b)
    (h2 : unixOf a - unixOf b < 2 ^ 63) : cmpByDate a b < 0 ↔ unixOf a < unixOf b := by
  unfold cmpByDate
  rw [wrapInt64_eq _ h1 h2]
  omega

theorem sortTagsByDate_sorted (rt : Runtime) (hrt : rt.Lawful) (tags out : List tag)
    (hb : ∀ a ∈ tags, ∀ b ∈ tags, -2 ^ 63 ≤ unixOf a - unixOf b ∧ unixOf a - unixOf b < 2 ^ 63)
    (h : sortTagsByDate rt tags = some out) :
    out.Pairwise (fun a b => unixOf a ≤ unixOf b) := by
  unfold sortTagsByDate at h
  split_ifs at h
  cases h
  exact hrt.sortFunc_sorted cmpByDate tags unixOf
    (fun a ha b hb' => cmpByDate_neg_iff a b (hb a ha b hb').1 (hb a ha b hb').2)

theorem unixOf_eq_of_frame (a b : tag) (h : frame a = frame b) : unixOf a = unixOf b := by
  have hc : a.commit = b.commit := by
    simp only [frame, Prod.mk.injEq] at h
    exact h.2.2.2
  simp [unixOf, hc]

theorem mapAppend_flat (k : String) (t : tag) :
    ∀ m : List (String × List tag),
      ((mapAppend m k t).flatMap fun e => e.2).Perm (t :: m.flatMap fun e => e.2) := by
  intro m
  induction m with
  | nil => simp [mapAppend]
  | cons e rest ih =>
    obtain ⟨k1, l⟩ := e
    simp only [mapAppend]
    split_ifs with h
    · simp only [List.flatMap_cons, List.append_assoc, List.singleton_append]
      exact List.perm_middle
    · simp only [List.flatMap_cons]
      exact (List.Perm.append_left l ih).trans List.perm_middle

theorem buildTagMap_flat : ∀ tags : List tag,
    ((buildTagMap tags).flatMap fun e => e.2).Perm tags := by
  intro tags
  induction tags using List.reverseRecOn with
  | nil => simp [buildTagMap]
  | append_singleton pre t ih =>
    rw [buildTagMap_snoc]
    refine (mapAppend_flat _ t _).trans ?_
    refine (List.Perm.cons t ih).trans ?_
    simpa using (List.perm_append_singleton t pre).symm

theorem calculateTagRevision_frame (rt : Runtime) (hrt : rt.Lawful) (tags out : List tag)
    (h : calculateTagRevision rt tags = some out) : (out.map frame).Perm (tags.map frame) := by
  refine (revisionLoop_frame rt hrt _ out h).trans (List.Perm.map frame ?_)
  exact ((hrt.mapRange_perm _).flatMap_right _).trans (buildTagMap_flat tags)

theorem planOf_frame (rt : Runtime) (hrt : rt.Lawful) (tags out : List tag)
    (h : planOf rt tags = some out) : (out.map frame).Perm (tags.map frame) := by
  unfold planOf at h
  cases hc : calculateTagRevision rt tags with
  | none => simp [hc] at h
  | some tagged =>
    simp only [hc] at h
    exact ((sortTagsByDate_perm rt hrt tagged out h).map frame).trans
      (calculateTagRevision_frame rt hrt tags tagged hc)

theorem unixOf_mem_of_frame_perm (l1 l2 : List tag) (h : (l1.map frame).Perm (l2.map frame))
    (a : tag) (ha : a ∈ l1) : ∃ b ∈ l2, unixOf b = unixOf a := by
  have : frame a ∈ l2.map frame := h.subset (List.mem_map_of_mem frame ha)
  obtain ⟨b, hb, e⟩ := List.mem_map.1 this
  exact ⟨b, hb, unixOf_eq_of_frame b a e⟩

/-- Where no difference of two committer times overflows an `int64`, the plan is in
ascending order of commit time. -/
theorem planOf_sorted (rt : Runtime) (hrt : rt.Lawful) (tags out : List tag)
    (hb : ∀ a ∈ tags, ∀ b ∈ tags, -2 ^ 63 ≤ unixOf a - unixOf b ∧ unixOf a - unixOf b < 2 ^ 63)
    (h : planOf rt tags = some out) :
    out.Pairwise (fun a b => unixOf a ≤ unixOf b) := by
  unfold planOf at h
  cases hc : calculateTagRevision rt tags with
  | none => simp [hc] at h
  | some tagged =>
    simp only [hc] at h
    refine sortTagsByDate_sorted rt hrt tagged out ?_ h
    intro a ha b hb'
    obtain ⟨a', ha', ea⟩ :=
      unixOf_mem_of_frame_perm _ _ (calculateTagRevision_frame rt hrt tags tagged hc) a ha
    obtain ⟨b', hb'', eb⟩ :=
      unixOf_mem_of_frame_perm _ _ (calculateTagRevision_frame rt hrt tags tagged hc) b hb'
    rw [← ea, ← eb]
    exact hb a' ha' b' hb''

/-- C6 (the code departs from it): two tags on commits `2 ^ 62` and `-2 ^ 62 - 1` seconds
from the epoch.  The `int64` difference of the two times wraps around, the comparison
takes the later commit for the earlier one, and the plan lists `late` before `early`,
in whichever order the tags are enumerated. -/
theorem getTags_plan_not_ascending :
    (getTags smallRuntime repoFar).map (fun p => p.1.map (fun t => (t.from_, unixOf t))) =
        some [("late", 4611686018427387904), ("early", -4611686018427387905)] ∧
      (getTags smallRuntime repoFarRev).map (fun p => p.1.map (fun t => (t.from_, unixOf t))) =
        some [("late", 4611686018427387904), ("early", -4611686018427387905)] ∧
      cmpByDate ⟨"late", "", ⟨"late", "c1"⟩, "", some ⟨"c1", ⟨4611686018427387904, 0⟩⟩⟩
          ⟨"early", "", ⟨"early", "c2"⟩, "", some ⟨"c2", ⟨-4611686018427387905, 0⟩⟩⟩ =
        -9223372036854775807 := by
  decide

/-! ## Independence of the enumeration order -/

theorem map_unixOf_eq (l : List tag) :
    l.map unixOf = (l.map frame).map
      (fun f => match f.2.2.2 with | some c => c.When.Unix | none => 0) := by
  rw [List.map_map]
  rfl

theorem map_commit_eq (l : List tag) :
    l.map (fun t => t.commit) = (l.map frame).map (fun f => f.2.2.2) := by
  rw [List.map_map]
  rfl

theorem map_unixOf_perm (l1 l2 : List tag) (h : (l1.map frame).Perm (l2.map frame)) :
    (l1.map unixOf).Perm (l2.map unixOf) := by
  rw [map_unixOf_eq, map_unixOf_eq]
  exact h.map _

theorem commit_isSome_of_frame_perm (l1 l2 : List tag)
    (h : (l1.map frame).Perm (l2.map frame)) (h2 : ∀ t ∈ l2, t.commit.isSome = true) :
    ∀ t ∈ l1, t.commit.isSome = true := by
  intro t ht
  have hm : t.commit ∈ l1.map (fun t => t.commit) := List.mem_map_of_mem _ ht
  rw [map_commit_eq] at hm
  have hm2 := (h.map (fun f => f.2.2.2)).subset hm
  rw [← map_commit_eq] at hm2
  obtain ⟨u, hu, e⟩ := List.mem_map.1 hm2
  rw [← e]
  exact h2 u hu

theorem no_overflow_of_frame_perm (l1 l2 : List tag)
    (h : (l1.map frame).Perm (l2.map frame))
    (hb : ∀ a ∈ l2, ∀ b ∈ l2, -2 ^ 63 ≤ unixOf a - unixOf b ∧ unixOf a - unixOf b < 2 ^ 63) :
    ∀ a ∈ l1, ∀ b ∈ l1, -2 ^ 63 ≤ unixOf a - unixOf b ∧ unixOf a - unixOf b < 2 ^ 63 := by
  intro a ha b hb'
  obtain ⟨a', ha', ea⟩ := unixOf_mem_of_frame_perm _ _ h a ha
  obtain ⟨b', hb'', eb⟩ := unixOf_mem_of_frame_perm _ _ h b hb'
  rw [← ea, ← eb]
  exact hb a' ha' b' hb''

/-- Records with pairwise different commit times have one ascending arrangement. -/
theorem sorted_unique (l1 l2 : List tag) (hp : l1.Perm l2)
    (h1 : l1.Pairwise (fun a b => unixOf a ≤ unixOf b))
    (h2 : l2.Pairwise (fun a b => unixOf a ≤ unixOf b))
    (hd : (l1.map unixOf).Nodup) : l1 = l2 := by
  have hd2 : (l2.map unixOf).Nodup := (hp.map unixOf).nodup_iff.1 hd
  rw [List.Nodup, List.pairwise_map] at hd hd2
  have s1 : l1.Pairwise (fun a b => unixOf a < unixOf b) :=
    (h1.and hd).imp (fun h => lt_of_le_of_ne h.1 h.2)
  have s2 : l2.Pairwise (fun a b => unixOf a < unixOf b) :=
    (h2.and hd2).imp (fun h => lt_of_le_of_ne h.1 h.2)
  haveI : IsAntisymm tag (fun a b => unixOf a < unixOf b) :=
    ⟨fun a b hab hba => absurd hab (not_lt.2 (le_of_lt hba))⟩
  exact List.eq_of_perm_of_sorted hp s1 s2

theorem revisionLoop_eq (rt : Runtime) :
    ∀ (entries : List (String × List tag)),
      (∀ e ∈ entries, ∀ t ∈ e.2, t.commit.isSome = true) →
      revisionLoop rt entries =
        some (entries.flatMap fun e => renumberFrom 0 (rt.sortFunc cmpByDate e.2)) := by
  intro entries
  induction entries with
  | nil => intro _; rfl
  | cons e es ih =>
    intro h
    obtain ⟨k, l⟩ := e
    have hr := ih (fun e he => h e (List.mem_cons_of_mem _ he))
    have hs := sortTagsByDate_some rt l (h (k, l) (List.mem_cons_self _ _))
    simp [revisionLoop, hs, hr]

theorem keysOf_perm (tags1 tags2 : List tag) (hp : tags1.Perm tags2) :
    (keysOf tags1).Perm (keysOf tags2) := by
  rw [List.perm_ext_iff_of_nodup (keysOf_nodup _) (keysOf_nodup _)]
  intro k
  rw [mem_keysOf, mem_keysOf]
  constructor
  · rintro ⟨t, ht, e⟩; exact ⟨t, hp.subset ht, e⟩
  · rintro ⟨t, ht, e⟩; exact ⟨t, hp.symm.subset ht, e⟩

theorem nodup_map_filter (l : List tag) (p : tag → Bool) (h : (l.map unixOf).Nodup) :
    ((l.filter p).map unixOf).Nodup := by
  rw [List.Nodup, List.pairwise_map] at h ⊢
  exact h.filter p

/-- With pairwise different commit times and no overflow, the sorted group under a name
does not depend on the runtime or on the order of the input. -/
theorem sorted_group_eq (rt1 rt2 : Runtime) (h1 : rt1.Lawful) (h2 : rt2.Lawful)
    (tags1 tags2 : List tag) (hp : tags1.Perm tags2)
    (hd : (tags1.map unixOf).Nodup)
    (hb : ∀ a ∈ tags1, ∀ b ∈ tags1,
      -2 ^ 63 ≤ unixOf a - unixOf b ∧ unixOf a - unixOf b < 2 ^ 63) (k : String) :
    rt1.sortFunc cmpByDate (groupOf tags1 k).2 = rt2.sortFunc cmpByDate (groupOf tags2 k).2 := by
  simp only [groupOf]
  have hf : (tags1.filter fun t => t.to_ = k).Perm (tags2.filter fun t => t.to_ = k) :=
    hp.filter _
  have key1 : ∀ a ∈ tags1.filter (fun t => t.to_ = k), ∀ b ∈ tags1.filter (fun t => t.to_ = k),
      (cmpByDate a b < 0 ↔ unixOf a < unixOf b) := fun a ha b hb' =>
    cmpByDate_neg_iff a b (hb a (List.mem_filter.1 ha).1 b (List.mem_filter.1 hb').1).1
      (hb a (List.mem_filter.1 ha).1 b (List.mem_filter.1 hb').1).2
  have key2 : ∀ a ∈ tags2.filter (fun t => t.to_ = k), ∀ b ∈ tags2.filter (fun t => t.to_ = k),
      (cmpByDate a b < 0 ↔ unixOf a < unixOf b) := fun a ha b hb' =>
    key1 a (hf.symm.subset ha) b (hf.symm.subset hb')
  refine sorted_unique _ _ ?_ (h1.sortFunc_sorted _ _ unixOf key1)
    (h2.sortFunc_sorted _ _ unixOf key2) ?_
  · exact (h1.sortFunc_perm _ _).trans (hf.trans (h2.sortFunc_perm _ _).symm)
  · exact ((h1.sortFunc_perm _ _).map unixOf).nodup_iff.2 (nodup_map_filter _ _ hd)

theorem calculateTagRevision_eq (rt : Runtime) (hrt : rt.Lawful) (tags : List tag)
    (hc : ∀ t ∈ tags, t.commit.isSome = true) :
    calculateTagRevision rt tags =
      some ((rt.mapRange (buildTagMap tags)).flatMap
        fun e => renumberFrom 0 (rt.sortFunc cmpByDate e.2)) :=
  revisionLoop_eq rt _ (fun e he t ht => hc t (mapRange_entry_mem rt hrt tags e he t ht))

theorem tagged_perm (rt : Runtime) (hrt : rt.Lawful) (tags : List tag) :
    ((rt.mapRange (buildTagMap tags)).flatMap
        fun e => renumberFrom 0 (rt.sortFunc cmpByDate e.2)).Perm
      ((keysOf tags).flatMap
        fun k => renumberFrom 0 (rt.sortFunc cmpByDate (groupOf tags k).2)) := by
  refine ((mapRange_entries rt hrt tags).flatMap_right _).trans ?_
  rw [List.flatMap_map]

/-- C10 (amended): for records that all have a commit, whose commit times are pairwise
different and differ by less than `2 ^ 63` seconds, the plan (the name given to each
record and the order of the records) is the same for every order in which the tags are
enumerated, whichever order the map is visited in and whichever sorting algorithm the
runtime uses. -/
theorem plan_independent_of_enumeration (rt1 rt2 : Runtime) (h1 : rt1.Lawful) (h2 : rt2.Lawful)
    (tags1 tags2 : List tag) (hp : tags1.Perm tags2)
    (hc : ∀ t ∈ tags1, t.commit.isSome = true)
    (hd : (tags1.map unixOf).Nodup)
    (hb : ∀ a ∈ tags1, ∀ b ∈ tags1,
      -2 ^ 63 ≤ unixOf a - unixOf b ∧ unixOf a - unixOf b < 2 ^ 63) :
    ∃ plan, planOf rt1 tags1 = some plan ∧ planOf rt2 tags2 = some plan := by
  have hc2 : ∀ t ∈ tags2, t.commit.isSome = true := fun t ht => hc t (hp.symm.subset ht)
  have hb2 : ∀ a ∈ tags2, ∀ b ∈ tags2,
      -2 ^ 63 ≤ unixOf a - unixOf b ∧ unixOf a - unixOf b < 2 ^ 63 :=
    fun a ha b hb' => hb a (hp.symm.subset ha) b (hp.symm.subset hb')
  have e1 := calculateTagRevision_eq rt1 h1 tags1 hc
  have e2 := calculateTagRevision_eq rt2 h2 tags2 hc2
  have f1 := calculateTagRevision_frame rt1 h1 tags1 _ e1
  have f2 := calculateTagRevision_frame rt2 h2 tags2 _ e2
  -- the two lists of numbered records are permutations of each other
  have hperm : ((rt1.mapRange (buildTagMap tags1)).flatMap
        fun e => renumberFrom 0 (rt1.sortFunc cmpByDate e.2)).Perm
      ((rt2.mapRange (buildTagMap tags2)).flatMap
        fun e => renumberFrom 0 (rt2.sortFunc cmpByDate e.2)) := by
    refine (tagged_perm rt1 h1 tags1).trans (List.Perm.trans ?_ (tagged_perm rt2 h2 tags2).symm)
    refine ((keysOf_perm tags1 tags2 hp).flatMap_right _).trans (List.Perm.of_eq ?_)
    apply List.flatMap_congr
    intro k _
    rw [sorted_group_eq rt1 rt2 h1 h2 tags1 tags2 hp hd hb k]
  have s1 := sortTagsByDate_some rt1 _ (commit_isSome_of_frame_perm _ _ f1 hc)
  have s2 := sortTagsByDate_some rt2 _ (commit_isSome_of_frame_perm _ _ f2 hc2)
  have p1 : planOf rt1 tags1 = some (rt1.sortFunc cmpByDate
      ((rt1.mapRange (buildTagMap tags1)).flatMap
        fun e => renumberFrom 0 (rt1.sortFunc cmpByDate e.2))) := by
    simp only [planOf, e1, s1]
  have p2 : planOf rt2 tags2 = some (rt2.sortFunc cmpByDate
      ((rt2.mapRange (buildTagMap tags2)).flatMap
        fun e => renumberFrom 0 (rt2.sortFunc cmpByDate e.2))) := by
    simp only [planOf, e2, s2]
  refine ⟨_, p1, ?_⟩
  rw [p2, Option.some.injEq]
  have n1 := no_overflow_of_frame_perm _ _ f1 hb
  have n2 := no_overflow_of_frame_perm _ _ f2 hb2
  symm
  refine sorted_unique _ _ ?_
    (h1.sortFunc_sorted _ _ unixOf (fun a ha b hb' =>
      cmpByDate_neg_iff a b (n1 a ha b hb').1 (n1 a ha b hb').2))
    (h2.sortFunc_sorted _ _ unixOf (fun a ha b hb' =>
      cmpByDate_neg_iff a b (n2 a ha b hb').1 (n2 a ha b hb').2)) ?_
  · exact (h1.sortFunc_perm _ _).trans (hperm.trans (h2.sortFunc_perm _ _).symm)
  · refine ((h1.sortFunc_perm _ _).map unixOf).nodup_iff.2 ?_
    exact (map_unixOf_perm _ _ f1).nodup_iff.2 hd

/-- C10 (as the code has it): two tags `a` and `b` on the same commit.  Enumerated as
`a`, `b` the plan renames `a` to `v2024.6.1` and `b` to `v2024.6.2`; enumerated as
`b`, `a` it renames `b` to `v2024.6.1` and `a` to `v2024.6.2`: between records of equal
commit time the input position decides. -/
theorem plan_depends_on_enumeration :
    (getTags smallRuntime repoTie).map (fun p => renames p.1) =
        some [("a", "v2024.6.1"), ("b", "v2024.6.2")] ∧
      (getTags smallRuntime repoTieRev).map (fun p => renames p.1) =
        some [("b", "v2024.6.1"), ("a", "v2024.6.2")] ∧
      ¬ ∀ tags1 tags2 : List tag, tags1.Perm tags2 →
          planOf smallRuntime tags1 = planOf smallRuntime tags2 := by
  refine ⟨by decide, by decide, ?_⟩
  intro h
  have := h (resolveLoop repoTie ([⟨"a", "c1"⟩, ⟨"b", "c1"⟩].map newTag) none).1
    (resolveLoop repoTie ([⟨"b", "c1"⟩, ⟨"a", "c1"⟩].map newTag) none).1
    (by decide)
  revert this
  decide

theorem plan_independent_of_enumeration_witness :
    smallRuntime.Lawful ∧ recordsJanFeb.Perm recordsJanFebRev ∧
      ∃ plan, planOf smallRuntime recordsJanFeb = some plan ∧
        planOf smallRuntime recordsJanFebRev = some plan :=
  ⟨smallRuntime_lawful, by decide,
    plan_independent_of_enumeration smallRuntime smallRuntime smallRuntime_lawful
      smallRuntime_lawful recordsJanFeb recordsJanFebRev (by decide) (by decide) (by decide)
      (by decide)⟩

theorem target_names_unique_witness :
    smallRuntime.Lawful ∧
      ((planOf smallRuntime recordsJanFeb).getD []).map (fun t => t.to_) =
        ["v2023.1.1", "v2023.1.2", "v2023.2.1"] ∧
      (((planOf smallRuntime recordsJanFeb).getD []).map (fun t => t.to_)).Nodup :=
  ⟨smallRuntime_lawful, by decide,
    (target_names_unique smallRuntime smallRuntime_lawful).2.2 repoJanFeb
      ((planOf smallRuntime recordsJanFeb).getD []) none (by decide)⟩

/-! ## Names derived from commit times -/

theorem formatInt_no_dot (i : Int) : '.' ∉ (formatInt i).data := by
  unfold formatInt
  split_ifs
  · intro h
    have h2 : '.' ∈ '-' :: (decimal i.natAbs).data := by simpa using h
    rcases List.mem_cons.1 h2 with h3 | h3
    · exact absurd h3 (by decide)
    · exact decimal_no_dot _ h3
  · exact decimal_no_dot _

theorem formatInt_injective (i j : Int) (h : formatInt i = formatInt j) : i = j := by
  unfold formatInt at h
  split_ifs at h with hi hj hj
  · have h2 : (decimal i.natAbs).data = (decimal j.natAbs).data := by
      simpa using congrArg String.data h
    have := decimal_injective _ _ (String.ext h2)
    omega
  · exfalso
    have h2 : '-' :: (decimal i.natAbs).data = (decimal j.natAbs).data := by
      simpa using congrArg String.data h
    exact decimal_no_minus j.natAbs (by rw [← h2]; simp)
  · exfalso
    have h2 : (decimal i.natAbs).data = '-' :: (decimal j.natAbs).data := by
      simpa using congrArg String.data h
    exact decimal_no_minus i.natAbs (by rw [h2]; simp)
  · have := decimal_injective _ _ h
    omega

theorem deriveName_inj (s t : Time) (h : deriveName s = deriveName t) :
    s.Year = t.Year ∧ s.Month = t.Month := by
  unfold deriveName at h
  have hd : ('v' :: (formatInt s.Year).data) ++ '.' :: (formatInt s.Month).data =
      ('v' :: (formatInt t.Year).data) ++ '.' :: (formatInt t.Month).data := by
    simpa using congrArg String.data h
  obtain ⟨e1, e2⟩ := append_sep_inj '.' _ _ _ _ (formatInt_no_dot _) (formatInt_no_dot _) hd
  simp only [List.cons.injEq, true_and] at e1
  exact ⟨formatInt_injective _ _ (String.ext e1), formatInt_injective _ _ (String.ext e2)⟩

/-- Two commits whose times derive the same name are less than `2 ^ 63` seconds apart,
when neither time lies before the absolute epoch of Go's calendar. -/
theorem same_name_no_overflow (a b : tag) (ca cb : Commit) (ha : a.commit = some ca)
    (hb : b.commit = some cb) (va : ca.When.Valid) (vb : cb.When.Valid)
    (wa : ca.When.NoWrap) (wb : cb.When.NoWrap)
    (h : deriveName ca.When = deriveName cb.When) :
    -2 ^ 63 ≤ unixOf a - unixOf b ∧ unixOf a - unixOf b < 2 ^ 63 := by
  obtain ⟨hy, hm⟩ := deriveName_inj _ _ h
  have hc := Time.same_month_close _ _ hy hm
  unfold Time.NoWrap at wa wb
  rw [(Time.absSec_eq _ va).1 wa, (Time.absSec_eq _ vb).1 wb] at hc
  simp only [unixOf, ha, hb, Time.Unix]
  unfold Time.Valid at va vb
  omega

/-! ## Ordinals within a group -/

theorem pairwise_unixOf_of_frame (l1 l2 : List tag) (h : l1.map frame = l2.map frame)
    (h2 : l2.Pairwise (fun a b => unixOf a ≤ unixOf b)) :
    l1.Pairwise (fun a b => unixOf a ≤ unixOf b) := by
  have e : l1.map unixOf = l2.map unixOf := by rw [map_unixOf_eq, map_unixOf_eq, h]
  have h3 : (l2.map unixOf).Pairwise (fun x y => x ≤ y) := List.pairwise_map.2 h2
  rw [← e] at h3
  exact List.pairwise_map.1 h3

theorem block_names (rt : Runtime) (hrt : rt.Lawful) (tags : List tag) (k : String) :
    (renumberFrom 0 (rt.sortFunc cmpByDate (groupOf tags k).2)).map (fun t => t.to_) =
      revisionNames (groupOf tags k) := by
  have hp := hrt.sortFunc_perm cmpByDate (groupOf tags k).2
  have hk : ∀ t ∈ rt.sortFunc cmpByDate (groupOf tags k).2, t.to_ = k := by
    intro t ht
    have := hp.subset ht
    simpa [groupOf] using (List.mem_filter.1 this).2
  rw [renumberFrom_names k _ 0 hk, hp.length_eq]
  simp [revisionNames, groupOf]

theorem other_blocks_names (rt : Runtime) (hrt : rt.Lawful) (tags : List tag) (N : String)
    (es : List (String × List tag)) (hes : ∀ e ∈ es, e = groupOf tags e.1 ∧ e.1 ≠ N) :
    ∀ t ∈ es.flatMap (fun e => renumberFrom 0 (rt.sortFunc cmpByDate e.2)),
      ∀ j, t.to_ ≠ N ++ ("." ++ decimal j) := by
  intro t ht j hj
  obtain ⟨e, he, hte⟩ := List.mem_flatMap.1 ht
  obtain ⟨eq, hne⟩ := hes e he
  rw [eq] at hte
  have hn : t.to_ ∈ revisionNames (groupOf tags e.1) := by
    rw [← block_names rt hrt tags e.1]
    exact List.mem_map_of_mem (fun t => t.to_) hte
  obtain ⟨i, -, hi⟩ := (mem_revisionNames _ _).1 hn
  rw [hj] at hi
  exact hne (revision_name_inj _ _ _ _ hi).1.symm

/-- The records named `N` come out of `calculateTagRevision` as one block, numbered
`N.1`, `N.2`, ... in ascending order of commit time, when the differences of their
commit times do not overflow; no other record gets a name `N.j`. -/
theorem revision_block (rt : Runtime) (hrt : rt.Lawful) (tags : List tag) (N : String)
    (hc : ∀ t ∈ tags, t.commit.isSome = true)
    (hb : ∀ a ∈ tags, ∀ b ∈ tags, a.to_ = N → b.to_ = N →
      -2 ^ 63 ≤ unixOf a - unixOf b ∧ unixOf a - unixOf b < 2 ^ 63)
    (hk : ∃ t ∈ tags, t.to_ = N) :
    ∃ out pre block post, calculateTagRevision rt tags = some out ∧
      out = pre ++ block ++ post ∧
      (block.map frame).Perm ((tags.filter fun t => t.to_ = N).map frame) ∧
      block.map (fun t => t.to_) =
        (List.range (tags.filter fun t => t.to_ = N).length).map
          (fun i => N ++ ("." ++ decimal (i + 1))) ∧
      block.Pairwise (fun a b => unixOf a ≤ unixOf b) ∧
      ∀ t ∈ pre ++ post, ∀ j, t.to_ ≠ N ++ ("." ++ decimal j) := by
  have hmem : groupOf tags N ∈ rt.mapRange (buildTagMap tags) :=
    (mapRange_entries rt hrt tags).symm.subset
      (List.mem_map_of_mem _ ((mem_keysOf N tags).2 hk))
  obtain ⟨e1, e2, hsplit⟩ := List.append_of_mem hmem
  have hnd := mapRange_keys_nodup rt hrt tags
  have hent := mapRange_entry rt hrt tags
  rw [hsplit] at hnd hent
  have hkeys1 : ∀ e ∈ e1, e = groupOf tags e.1 ∧ e.1 ≠ N := by
    intro e he
    refine ⟨(hent e (by simp [he])).2, ?_⟩
    intro heq
    rw [List.map_append, List.map_cons, List.nodup_append] at hnd
    exact hnd.2.2 (List.mem_map_of_mem Prod.fst he) (by simp [groupOf, heq])
  have hkeys2 : ∀ e ∈ e2, e = groupOf tags e.1 ∧ e.1 ≠ N := by
    intro e he
    refine ⟨(hent e (by simp [he])).2, ?_⟩
    intro heq
    rw [List.map_append, List.map_cons, List.nodup_append, List.nodup_cons] at hnd
    exact hnd.2.1.1 (by simpa [groupOf, heq] using List.mem_map_of_mem Prod.fst he)
  refine ⟨_, e1.flatMap (fun e => renumberFrom 0 (rt.sortFunc cmpByDate e.2)),
    renumberFrom 0 (rt.sortFunc cmpByDate (groupOf tags N).2),
    e2.flatMap (fun e => renumberFrom 0 (rt.sortFunc cmpByDate e.2)),
    calculateTagRevision_eq rt hrt tags hc, ?_, ?_, ?_, ?_, ?_⟩
  · rw [hsplit]
    simp [List.flatMap_append, List.flatMap_cons]
  · rw [renumberFrom_frame]
    exact (hrt.sortFunc_perm _ _).map frame
  · rw [block_names rt hrt tags N]
    rfl
  · refine pairwise_unixOf_of_frame _ _ (renumberFrom_frame _ 0) ?_
    refine hrt.sortFunc_sorted cmpByDate _ unixOf ?_
    intro a ha b hb'
    have ha' := List.mem_filter.1 ha
    have hb'' := List.mem_filter.1 hb'
    have := hb a ha'.1 b hb''.1 (by simpa using ha'.2) (by simpa using hb''.2)
    exact cmpByDate_neg_iff a b this.1 this.2
  · intro t ht
    rcases List.mem_append.1 ht with h | h
    · exact other_blocks_names rt hrt tags N e1 hkeys1 t h
    · exact other_blocks_names rt hrt tags N e2 hkeys2 t h

/-- For records that all have a commit and every name `N` that is the name derived from
the commit time of each of the `k ≥ 1` records carrying it, none of these times lying
before the absolute epoch of Go's calendar: `calculateTagRevision` returns, and those
`k` records (in some arrangement `block`, a stretch of the output) are named exactly
`N.1`, `N.2`, ..., `N.k` in that order, one ordinal each (`N.1` alone for `k = 1`), the
commit time of each not later than that of the next; no other record is given a name
`N.j`. -/
theorem revision_ordinals (rt : Runtime) (hrt : rt.Lawful) (tags : List tag) (N : String)
    (hc : ∀ t ∈ tags, t.commit.isSome = true)
    (hN : ∀ t ∈ tags, t.to_ = N →
      ∃ c, t.commit = some c ∧ c.When.Valid ∧ c.When.NoWrap ∧ N = deriveName c.When)
    (hk : ∃ t ∈ tags, t.to_ = N) :
    ∃ out pre block post, calculateTagRevision rt tags = some out ∧
      out = pre ++ block ++ post ∧
      (block.map frame).Perm ((tags.filter fun t => t.to_ = N).map frame) ∧
      block.map (fun t => t.to_) =
        (List.range (tags.filter fun t => t.to_ = N).length).map
          (fun i => N ++ ("." ++ decimal (i + 1))) ∧
      block.Pairwise (fun a b => unixOf a ≤ unixOf b) ∧
      ∀ t ∈ pre ++ post, ∀ j, t.to_ ≠ N ++ ("." ++ decimal j) := by
  refine revision_block rt hrt tags N hc ?_ hk
  intro a ha b hb ea eb
  obtain ⟨ca, hca, va, wa, na⟩ := hN a ha ea
  obtain ⟨cb, hcb, vb, wb, nb⟩ := hN b hb eb
  exact same_name_no_overflow a b ca cb hca hcb va vb wa wb (na.symm.trans nb)

theorem recordsJanFeb_derived :
    ∀ t ∈ recordsJanFeb, t.to_ = "v2023.1" →
      ∃ c, t.commit = some c ∧ c.When.Valid ∧ c.When.NoWrap ∧
        "v2023.1" = deriveName c.When := by
  have hrec : recordsJanFeb =
      [⟨"first", "v2023.1", ⟨"first", "c1"⟩, "converted from tag first",
          some ⟨"c1", ⟨1672876800, 0⟩⟩⟩,
        ⟨"second", "v2023.1", ⟨"second", "c2"⟩, "converted from tag second",
          some ⟨"c2", ⟨1674172800, 0⟩⟩⟩,
        ⟨"third", "v2023.2", ⟨"third", "c3"⟩, "converted from tag third",
          some ⟨"c3", ⟨1675209600, 0⟩⟩⟩] := by decide
  intro t ht he
  rw [hrec] at ht
  simp only [List.mem_cons, List.mem_singleton, List.not_mem_nil, or_false] at ht
  rcases ht with rfl | rfl | rfl
  · exact ⟨_, rfl, by unfold Time.Valid; decide, by unfold Time.NoWrap; decide, by decide⟩
  · exact ⟨_, rfl, by unfold Time.Valid; decide, by unfold Time.NoWrap; decide, by decide⟩
  · exact absurd he (by decide)

/-- The scenario of three tags on commits of 2023-01-05, 2023-01-20 and 2023-02-01. -/
theorem revision_ordinals_janFeb :
    smallRuntime.Lawful ∧
      (getTags smallRuntime repoJanFeb).map (fun p => renames p.1) =
        some [("first", "v2023.1.1"), ("second", "v2023.1.2"), ("third", "v2023.2.1")] ∧
      ∃ out pre block post, calculateTagRevision smallRuntime recordsJanFeb = some out ∧
        out = pre ++ block ++ post ∧
        (block.map frame).Perm ((recordsJanFeb.filter fun t => t.to_ = "v2023.1").map frame) ∧
        block.map (fun t => t.to_) =
          (List.range (recordsJanFeb.filter fun t => t.to_ = "v2023.1").length).map
            (fun i => "v2023.1" ++ ("." ++ decimal (i + 1))) ∧
        block.Pairwise (fun a b => unixOf a ≤ unixOf b) ∧
        ∀ t ∈ pre ++ post, ∀ j, t.to_ ≠ "v2023.1" ++ ("." ++ decimal j) :=
  ⟨smallRuntime_lawful, by decide,
    revision_ordinals smallRuntime smallRuntime_lawful recordsJanFeb "v2023.1" (by decide)
      recordsJanFeb_derived (by decide)⟩

/-- C2 (the code departs from it): two tags on commits whose committer times are the
largest and the smallest `int64`.  Go reads the smallest `2 ^ 64` seconds late, so both
times derive the name `v292277026596.12`; the difference of the two times wraps around
in the comparison, which reports the later commit as the earlier one.  The later commit
is numbered `.1` and the earlier `.2`, in either enumeration order. -/
theorem ordinals_against_commit_time :
    deriveName ⟨9223372036854775807, 0⟩ = "v292277026596.12" ∧
      deriveName ⟨-9223372036854775808, 0⟩ = "v292277026596.12" ∧
      cmpByDate (recordAt "newest" 9223372036854775807)
          (recordAt "oldest" (-9223372036854775808)) = -1 ∧
      (calculateTagRevision smallRuntime recordsEnds).map
          (fun out => out.map (fun t => (t.from_, t.to_, unixOf t))) =
        some [("newest", "v292277026596.12.1", 9223372036854775807),
          ("oldest", "v292277026596.12.2", -9223372036854775808)] ∧
      (getTags smallRuntime repoEnds).map
          (fun p => p.1.map (fun t => (t.from_, t.to_, unixOf t))) =
        some [("newest", "v292277026596.12.1", 9223372036854775807),
          ("oldest", "v292277026596.12.2", -9223372036854775808)] ∧
      (getTags smallRuntime repoEndsRev).map
          (fun p => p.1.map (fun t => (t.from_, t.to_, unixOf t))) =
        some [("newest", "v292277026596.12.1", 9223372036854775807),
          ("oldest", "v292277026596.12.2", -9223372036854775808)] := by
  decide

/-! ## Unresolved commits -/

theorem length_of_frame_perm (l1 l2 : List tag) (h : (l1.map frame).Perm (l2.map frame)) :
    l1.length = l2.length := by
  simpa using h.length_eq

theorem exists_nil_of_frame_perm (l1 l2 : List tag) (h : (l1.map frame).Perm (l2.map frame))
    (h2 : ∃ t ∈ l2, t.commit = none) : ∃ t ∈ l1, t.commit = none := by
  obtain ⟨t, ht, e⟩ := h2
  have hm : t.commit ∈ l2.map (fun t => t.commit) := List.mem_map_of_mem _ ht
  rw [map_commit_eq] at hm
  have hm2 := (h.symm.map (fun f => f.2.2.2)).subset hm
  rw [← map_commit_eq] at hm2
  obtain ⟨u, hu, e2⟩ := List.mem_map.1 hm2
  exact ⟨u, hu, e2.trans e⟩

theorem sortTagsByDate_none (rt : Runtime) (tags : List tag) (h2 : 2 ≤ tags.length)
    (hn : ∃ t ∈ tags, t.commit = none) : sortTagsByDate rt tags = none := by
  unfold sortTagsByDate
  rw [if_pos]
  refine ⟨h2, List.any_eq_true.2 ?_⟩
  obtain ⟨t, ht, e⟩ := hn
  exact ⟨t, ht, by simp [e]⟩

/-- Two or more records of which one has no commit: `planOf` panics. -/
theorem planOf_none (rt : Runtime) (hrt : rt.Lawful) (tags : List tag) (h2 : 2 ≤ tags.length)
    (hn : ∃ t ∈ tags, t.commit = none) : planOf rt tags = none := by
  unfold planOf
  cases hc : calculateTagRevision rt tags with
  | none => rfl
  | some tagged =>
    have hf := calculateTagRevision_frame rt hrt tags tagged hc
    exact sortTagsByDate_none rt tagged (by rw [length_of_frame_perm _ _ hf]; exact h2)
      (exists_nil_of_frame_perm _ _ hf hn)

theorem resolveStep_commit (repo : Repository) (t : tag) :
    (resolveStep repo t).1.commit = none ↔ (resolveStep repo t).2.isSome = true := by
  unfold resolveStep
  cases repo.CommitObject t.tag.Hash with
  | error e => simp
  | ok c => cases repo.TagObject t.tag.Hash <;> simp

/-- With two or more tags of which one does not resolve to a commit, `getTags` does
not return: it panics on the nil commit, whatever the position of that tag. -/
theorem getTags_panics (rt : Runtime) (hrt : rt.Lawful) (repo : Repository)
    (refs : List Reference) (hT : repo.Tags = .refs refs) (h2 : 2 ≤ refs.length)
    (r : Reference) (hr : r ∈ refs) (e : String) (he : repo.CommitObject r.Hash = .error e) :
    getTags rt repo = none := by
  unfold getTags
  simp only [hT]
  rw [planOf_none rt hrt]
  · rw [resolveLoop_fst]; simpa using h2
  · refine ⟨(resolveStep repo (newTag r)).1, ?_, ?_⟩
    · rw [resolveLoop_fst]
      exact List.mem_map.2 ⟨newTag r, List.mem_map_of_mem _ hr, rfl⟩
    · simp [resolveStep, newTag, he]

/-- A plan that `getTags` returns without an error holds only records with a commit. -/
theorem getTags_commits (rt : Runtime) (hrt : rt.Lawful) (repo : Repository)
    (plan : List tag) (h : getTags rt repo = some (plan, none)) :
    ∀ t ∈ plan, t.commit.isSome = true := by
  unfold getTags at h
  cases hT : repo.Tags with
  | tagsFailed e => simp [hT] at h
  | forEachFailed e => simp [hT] at h
  | refs l =>
    simp only [hT] at h
    cases hp : planOf rt (resolveLoop repo (l.map newTag) none).1 with
    | none => simp [hp] at h
    | some out =>
      simp only [hp, Option.some.injEq, Prod.mk.injEq] at h
      obtain ⟨rfl, herr⟩ := h
      have hf := planOf_frame rt hrt _ out hp
      by_contra hcon
      push_neg at hcon
      obtain ⟨t, ht, hnone⟩ := hcon
      have hnone' : t.commit = none := by
        cases hc : t.commit with
        | none => rfl
        | some c => simp [hc] at hnone
      obtain ⟨u, hu, hun⟩ := exists_nil_of_frame_perm _ _ hf.symm ⟨t, ht, hnone'⟩
      by_cases hlen : 2 ≤ (resolveLoop repo (l.map newTag) none).1.length
      · rw [planOf_none rt hrt _ hlen ⟨u, hu, hun⟩] at hp
        exact absurd hp (by simp)
      · rw [resolveLoop_fst] at hu hlen
        rw [resolveLoop_snd] at herr
        cases l with
        | nil => simp at hu
        | cons r rs =>
          cases rs with
          | cons r2 rs2 => simp at hlen
          | nil =>
            simp only [List.map_cons, List.map_nil, List.mem_singleton] at hu
            subst hu
            simp only [List.map_cons, List.map_nil, List.getLast?_singleton] at herr
            have := (resolveStep_commit repo (newTag r)).1 hun
            rw [herr] at this
            exact absurd this (by simp)

/-- C4 (the code departs from it): the tag `release` does not resolve to a commit.
With the tag `nightly` beside it `getTags` produces no plan at all, it panics on the nil
commit, where without `release` the plan renames `nightly` to `v2024.6.1`; alone,
`release` stays in the returned records, without a commit and named `.1`. -/
theorem getTags_keeps_unresolved :
    getTags smallRuntime repoBroken = none ∧
      (getTags smallRuntime repoNightly).map (fun p => renames p.1) =
        some [("nightly", "v2024.6.1")] ∧
      (getTags smallRuntime repoBrokenOnly).map
          (fun p => p.1.map (fun t => (t.from_, t.to_, t.commit))) =
        some [("release", ".1", none)] := by
  decide

/-- C8 (the code departs from it): the only tag of the repository does not resolve to a
commit.  The loop leaves the error of `CommitObject` in the result `err`, `getTags`
returns it, and `main` ends on its fatal path; with a second tag, before or after the
failing one, the run ends in a panic. -/
theorem getTags_returns_per_tag_error :
    getTags smallRuntime repoBrokenOnly =
        some ([⟨"release", ".1", ⟨"release", "t1"⟩, "converted from tag release", none⟩],
          some "object not found") ∧
      (main smallRuntime repoBrokenOnly nameStore false false ["release"]).exit =
        Exit.fatal "could not get tags from repo: object not found" ∧
      (main smallRuntime repoBroken nameStore false false ["release", "nightly"]).exit =
        Exit.panic ∧
      (main smallRuntime repoBrokenLast nameStore false false ["release", "nightly"]).exit =
        Exit.panic := by
  decide

/-! ## Dry run -/

theorem filterMap_commit_eq (plan : List tag) (h : ∀ t ∈ plan, t.commit.isSome = true) :
    (plan.filterMap (fun t => t.commit.map (fun c => (t.to_, c.Hash, t.message)))).map
        (fun c => (c.1, c.2.2)) =
      plan.map (fun t => (t.to_, t.message)) := by
  induction plan with
  | nil => rfl
  | cons t ts ih =>
    have ht := h t (List.mem_cons_self _ _)
    have hts : ∀ u ∈ ts, u.commit.isSome = true := fun u hu => h u (List.mem_cons_of_mem _ hu)
    cases hc : t.commit with
    | none => rw [hc] at ht; exact absurd ht (by simp)
    | some c => simp [List.filterMap_cons, hc, ih hts]

/-- C9: with `-dry-run`, whatever the repository, the store and the `-delete` flag,
`main` makes no `CreateTag` and no `DeleteTag` call and leaves the reference store as it
was; it prints what the run without `-dry-run` prints, and when `getTags` returns a
plan these are the lines of the records of the plan, in plan order, which are the
records for which the apply loop of the run without `-dry-run` calls `CreateTag`, in
the same order. -/
theorem dry_run_writes_nothing {σ : Type} (rt : Runtime) (hrt : rt.Lawful)
    (repo : Repository) (gw : RefStore σ) (deleteOld : Bool) (s : σ) :
    (main rt repo gw true deleteOld s).calls = [] ∧
      (main rt repo gw true deleteOld s).store = s ∧
      (main rt repo gw true deleteOld s).stdout = (main rt repo gw false deleteOld s).stdout ∧
      ∀ plan, getTags rt repo = some (plan, none) →
        (main rt repo gw true deleteOld s).exit = Exit.done ∧
        (main rt repo gw true deleteOld s).stdout = "Tags to migrate:" :: plan.map planLine ∧
        (main rt repo gw false deleteOld s).exit = Exit.done ∧
        (createCalls (main rt repo gw false deleteOld s).calls).map (fun c => (c.1, c.2.2)) =
          plan.map (fun t => (t.to_, t.message)) := by
  cases hg : getTags rt repo with
  | none => simp [main, hg]
  | some p =>
    obtain ⟨tags, err⟩ := p
    cases err with
    | some e => simp [main, hg]
    | none =>
      have hc := getTags_commits rt hrt repo tags hg
      refine ⟨by simp [main, hg], by simp [main, hg], by simp [main, hg], ?_⟩
      intro plan hplan
      simp only [Option.some.injEq, Prod.mk.injEq, and_true] at hplan
      subst hplan
      refine ⟨by simp [main, hg], by simp [main, hg], ?_, ?_⟩
      · simp [main, hg, applyLoop_no_panic gw deleteOld tags s hc]
      · simp only [main, hg, Bool.false_eq_true, if_false]
        rw [applyLoop_createCalls gw deleteOld tags s hc]
        exact filterMap_commit_eq tags hc

theorem dry_run_writes_nothing_witness :
    smallRuntime.Lawful ∧
      (main smallRuntime repoJanFeb nameStore true true ["first", "second", "third"]).calls = [] ∧
      (main smallRuntime repoJanFeb nameStore true true ["first", "second", "third"]).store =
        ["first", "second", "third"] ∧
      (main smallRuntime repoJanFeb nameStore true true ["first", "second", "third"]).stdout =
        ["Tags to migrate:", "first --> v2023.1.1 message: converted from tag first",
          "second --> v2023.1.2 message: converted from tag second",
          "third --> v2023.2.1 message: converted from tag third"] ∧
      (main smallRuntime repoJanFeb nameStore false true ["first", "second", "third"]).store =
        ["v2023.2.1", "v2023.1.2", "v2023.1.1"] :=
  ⟨smallRuntime_lawful,
    (dry_run_writes_nothing smallRuntime smallRuntime_lawful repoJanFeb nameStore true
      ["first", "second", "third"]).1,
    (dry_run_writes_nothing smallRuntime smallRuntime_lawful repoJanFeb nameStore true
      ["first", "second", "third"]).2.1,
    by decide, by decide⟩

/-! ## Messages -/

/-- When every tag resolves to a commit, `getTags` returns a plan and no error. -/
theorem getTags_returns (rt : Runtime) (hrt : rt.Lawful) (repo : Repository)
    (refs : List Reference) (hT : repo.Tags = .refs refs)
    (hc : ∀ r ∈ refs, ∃ c, repo.CommitObject r.Hash = .ok c) :
    ∃ plan, getTags rt repo = some (plan, none) := by
  have hcom : ∀ t ∈ (resolveLoop repo (refs.map newTag) none).1, t.commit.isSome = true := by
    intro t ht
    rw [resolveLoop_fst] at ht
    obtain ⟨u, hu, rfl⟩ := List.mem_map.1 ht
    obtain ⟨r, hr, rfl⟩ := List.mem_map.1 hu
    obtain ⟨c, hc'⟩ := hc r hr
    simp only [resolveStep, newTag, hc']
    cases repo.TagObject r.Hash <;> simp
  have herr : (resolveLoop repo (refs.map newTag) none).2 = none := by
    rw [resolveLoop_snd]
    cases hl : (refs.map newTag).getLast? with
    | none => rfl
    | some u =>
      obtain ⟨r, hr, rfl⟩ := List.mem_map.1 (List.mem_of_getLast?_eq_some hl)
      obtain ⟨c, hc'⟩ := hc r hr
      simp only [resolveStep, newTag, hc']
      cases repo.TagObject r.Hash <;> rfl
  obtain ⟨tagged, htag⟩ := calculateTagRevision_some rt hrt _ hcom
  have hf := calculateTagRevision_frame rt hrt _ tagged htag
  have hs := sortTagsByDate_some rt tagged (commit_isSome_of_frame_perm _ _ hf hcom)
  exact ⟨rt.sortFunc cmpByDate tagged, by simp only [getTags, hT, planOf, htag, hs, herr]⟩

/-- The message that the loop of `getTags` leaves in the record of a reference: the
message of the tag object in front of the default message when the commit resolves and
the tag-object lookup under the same hash finds a tag object, the default message in
every other case. -/
theorem resolveStep_message (repo : Repository) (r : Reference) :
    (∀ c M, repo.CommitObject r.Hash = .ok c → repo.TagObject r.Hash = .found M →
        (resolveStep repo (newTag r)).1.message =
          M ++ " (converted from tag " ++ r.Name ++ ")") ∧
      ((∀ c M, repo.CommitObject r.Hash = .ok c → repo.TagObject r.Hash ≠ .found M) →
        (resolveStep repo (newTag r)).1.message = "converted from tag " ++ r.Name) := by
  constructor
  · intro c M hc h
    have e : (" (converted from tag " : String) = " (" ++ "converted from tag " := by decide
    simp only [resolveStep, newTag, hc, h, e, String.append_assoc]
  · intro hno
    cases hc : repo.CommitObject r.Hash with
    | error e => simp only [resolveStep, newTag, hc]
    | ok c =>
      cases h : repo.TagObject r.Hash with
      | failed e => simp only [resolveStep, newTag, hc, h]
      | notFound => simp only [resolveStep, newTag, hc, h]
      | found M => exact absurd h (hno c M hc)

theorem resolveStep_from (repo : Repository) (r : Reference) :
    (resolveStep repo (newTag r)).1.from_ = r.Name := by
  cases hc : repo.CommitObject r.Hash with
  | error e => simp only [resolveStep, newTag, hc]
  | ok c =>
    cases h : repo.TagObject r.Hash <;> simp only [resolveStep, newTag, hc, h]

/-- In an object store the object under a hash has one type. -/
theorem storeRepository_oneTypePerHash (refs : List Reference)
    (objects : Hash → Option Object) : (storeRepository refs objects).OneTypePerHash := by
  intro h c hc m hm
  simp only [storeRepository] at hc hm
  cases ho : objects h with
  | none => simp [ho] at hc
  | some o =>
    cases o with
    | commit c2 => simp [ho] at hm
    | tag m2 t2 => simp [ho] at hc

/-- In a repository where no hash is both a commit and a tag object, every record of
every plan that `getTags` returns carries the default message: the branch that puts
the message of a tag object in front of it is never taken, because the lookup is made
with the hash that has just resolved to a commit. -/
theorem getTags_message_default (rt : Runtime) (hrt : rt.Lawful) (repo : Repository)
    (h1 : repo.OneTypePerHash) (plan : List tag) (err : Option String)
    (h : getTags rt repo = some (plan, err)) :
    ∀ t ∈ plan, t.message = "converted from tag " ++ t.from_ := by
  intro t ht
  cases hT : repo.Tags with
  | tagsFailed e =>
    simp only [getTags, hT, Option.some.injEq, Prod.mk.injEq] at h
    rw [← h.1] at ht
    simp at ht
  | forEachFailed e =>
    simp only [getTags, hT, Option.some.injEq, Prod.mk.injEq] at h
    rw [← h.1] at ht
    simp at ht
  | refs l =>
    simp only [getTags, hT] at h
    cases hpl : planOf rt (resolveLoop repo (l.map newTag) none).1 with
    | none => simp [hpl] at h
    | some out =>
      simp only [hpl, Option.some.injEq, Prod.mk.injEq] at h
      obtain ⟨rfl, -⟩ := h
      have hf := planOf_frame rt hrt _ out hpl
      obtain ⟨u, hu, e⟩ := List.mem_map.1 (hf.subset (List.mem_map_of_mem frame ht))
      rw [resolveLoop_fst] at hu
      obtain ⟨v, hv, rfl⟩ := List.mem_map.1 hu
      obtain ⟨r, -, rfl⟩ := List.mem_map.1 hv
      simp only [frame, Prod.mk.injEq] at e
      rw [← e.1, ← e.2.2.1, resolveStep_from]
      exact (resolveStep_message repo r).2 (fun c M hc => h1 r.Hash c hc M)

/-- C7 (the code departs from it): one annotated tag `release` with message `first cut`
on a commit of 2024-06-10.  The reference holds the hash of the tag object, and the
loop of `getTags` asks for the commit under that hash: `CommitObject` fails, the
`continue` skips the tag-object lookup, and the record keeps the default message, no
commit and an empty derived name.  `getTags` returns it as `release -> .1` together
with the error, and `main` ends on its fatal path.  A lightweight tag gets the default
message. -/
theorem annotated_tag_message_lost :
    repoAnnotatedTag.TagObject "t1" = .found "first cut" ∧
      getTags smallRuntime repoAnnotatedTag =
        some ([⟨"release", ".1", ⟨"release", "t1"⟩, "converted from tag release", none⟩],
          some "object not found") ∧
      (main smallRuntime repoAnnotatedTag nameStore true false ["release"]).exit =
        Exit.fatal "could not get tags from repo: object not found" ∧
      (main smallRuntime repoAnnotatedTag nameStore true false ["release"]).stdout = [] ∧
      (getTags smallRuntime repoRelease).map (fun p => p.1.map (fun t => (t.to_, t.message))) =
        some [("v2024.6.1", "converted from tag release")] := by
  decide

/-! ## One record per reference -/

theorem getTags_planOf (rt : Runtime) (repo : Repository) (refs : List Reference)
    (hT : repo.Tags = .refs refs) (plan : List tag) (err : Option String)
    (h : getTags rt repo = some (plan, err)) :
    planOf rt (resolveLoop repo (refs.map newTag) none).1 = some plan := by
  simp only [getTags, hT] at h
  cases hp : planOf rt (resolveLoop repo (refs.map newTag) none).1 with
  | none => simp [hp] at h
  | some out =>
    simp only [hp, Option.some.injEq, Prod.mk.injEq] at h
    rw [h.1]

theorem resolveStep_tag (repo : Repository) (t : tag) :
    (resolveStep repo t).1.tag = t.tag ∧ (resolveStep repo t).1.from_ = t.from_ := by
  unfold resolveStep
  cases repo.CommitObject t.tag.Hash with
  | error e => simp
  | ok c => cases repo.TagObject t.tag.Hash <;> simp

theorem resolveStep_commit_ok (repo : Repository) (t : tag) (c : Commit)
    (h : repo.CommitObject t.tag.Hash = .ok c) : (resolveStep repo t).1.commit = some c := by
  unfold resolveStep
  rw [h]
  cases repo.TagObject t.tag.Hash <;> simp

/-- C12: when every reference resolves to a commit, `getTags` returns a plan with one
record per reference: as many records as references, the references of the records
being those of the input, each once; and every record of the plan carries the source
name, the reference, the resolved commit and the message that the loop of `getTags`
left for its reference.  Numbering and sorting assign only the target name and the
position. -/
theorem one_record_per_reference (rt : Runtime) (hrt : rt.Lawful) (repo : Repository)
    (refs : List Reference) (hT : repo.Tags = .refs refs)
    (hall : ∀ r ∈ refs, ∃ c, repo.CommitObject r.Hash = .ok c) :
    ∃ plan, getTags rt repo = some (plan, none) ∧ plan.length = refs.length ∧
      (plan.map (fun t => t.tag)).Perm refs ∧
      (plan.map frame).Perm ((resolveLoop repo (refs.map newTag) none).1.map frame) ∧
      ∀ t ∈ plan, t.tag ∈ refs ∧ t.from_ = t.tag.Name ∧
        frame t = frame (resolveStep repo (newTag t.tag)).1 ∧
        ∃ c, repo.CommitObject t.tag.Hash = .ok c ∧ t.commit = some c := by
  obtain ⟨plan, hplan⟩ := getTags_returns rt hrt repo refs hT hall
  have hf := planOf_frame rt hrt _ plan (getTags_planOf rt repo refs hT plan none hplan)
  have htags : (plan.map (fun t => t.tag)).Perm refs := by
    have h1 : plan.map (fun t => t.tag) = (plan.map frame).map (fun f => f.2.1) := by
      rw [List.map_map]; rfl
    rw [h1]
    refine (hf.map _).trans (List.Perm.of_eq ?_)
    rw [resolveLoop_fst, List.map_map, List.map_map, List.map_map]
    refine (List.map_congr_left ?_).trans (List.map_id _)
    intro r _
    exact (resolveStep_tag repo (newTag r)).1
  refine ⟨plan, hplan, ?_, htags, hf, ?_⟩
  · simpa using htags.length_eq
  · intro t ht
    have hm : frame t ∈ (resolveLoop repo (refs.map newTag) none).1.map frame :=
      hf.subset (List.mem_map_of_mem frame ht)
    rw [resolveLoop_fst, List.map_map, List.map_map] at hm
    obtain ⟨r, hr, e⟩ := List.mem_map.1 hm
    simp only [Function.comp] at e
    have htag : t.tag = r := by
      have := congrArg (fun f => f.2.1) e
      simp only [frame] at this
      rw [← this]
      exact (resolveStep_tag repo (newTag r)).1
    have hfrom : t.from_ = r.Name := by
      have := congrArg (fun f => f.1) e
      simp only [frame] at this
      rw [← this]
      exact (resolveStep_tag repo (newTag r)).2
    obtain ⟨c, hc⟩ := hall r hr
    have hcom : t.commit = some c := by
      have := congrArg (fun f => f.2.2.2) e
      simp only [frame] at this
      rw [← this]
      exact resolveStep_commit_ok repo (newTag r) c hc
    rw [htag]
    exact ⟨hr, hfrom, e.symm, c, hc, hcom⟩

theorem one_record_per_reference_witness :
    smallRuntime.Lawful ∧
      (getTags smallRuntime repoJanFeb).map (fun p => p.1.map (fun t => (t.from_, t.tag))) =
        some [("first", ⟨"first", "c1"⟩), ("second", ⟨"second", "c2"⟩),
          ("third", ⟨"third", "c3"⟩)] ∧
      ∃ plan, getTags smallRuntime repoJanFeb = some (plan, none) ∧
        plan.length = [(⟨"first", "c1"⟩ : Reference), ⟨"second", "c2"⟩, ⟨"third", "c3"⟩].length ∧
        (plan.map (fun t => t.tag)).Perm [⟨"first", "c1"⟩, ⟨"second", "c2"⟩, ⟨"third", "c3"⟩] ∧
        (plan.map frame).Perm ((resolveLoop repoJanFeb
          ([⟨"first", "c1"⟩, ⟨"second", "c2"⟩, ⟨"third", "c3"⟩].map newTag) none).1.map frame) ∧
        ∀ t ∈ plan, t.tag ∈ [(⟨"first", "c1"⟩ : Reference), ⟨"second", "c2"⟩, ⟨"third", "c3"⟩] ∧
          t.from_ = t.tag.Name ∧
          frame t = frame (resolveStep repoJanFeb (newTag t.tag)).1 ∧
          ∃ c, repoJanFeb.CommitObject t.tag.Hash = .ok c ∧ t.commit = some c :=
  ⟨smallRuntime_lawful, by decide,
    one_record_per_reference smallRuntime smallRuntime_lawful repoJanFeb
      [⟨"first", "c1"⟩, ⟨"second", "c2"⟩, ⟨"third", "c3"⟩] rfl
      (by
        intro r hr
        simp only [List.mem_cons, List.mem_singleton, List.not_mem_nil, or_false] at hr
        rcases hr with rfl | rfl | rfl
        · exact ⟨_, rfl⟩
        · exact ⟨_, rfl⟩
        · exact ⟨_, rfl⟩)⟩

/-! ## The create calls of the apply loop -/

theorem filterMap_commit_length (plan : List tag) (h : ∀ t ∈ plan, t.commit.isSome = true) :
    (plan.filterMap (fun t => t.commit.map (fun c => (t.to_, c.Hash, t.message)))).length =
      plan.length := by
  induction plan with
  | nil => rfl
  | cons t ts ih =>
    have ht := h t (List.mem_cons_self _ _)
    have hts : ∀ u ∈ ts, u.commit.isSome = true := fun u hu => h u (List.mem_cons_of_mem _ hu)
    cases hc : t.commit with
    | none => rw [hc] at ht; exact absurd ht (by simp)
    | some c => simp [List.filterMap_cons, hc, ih hts]

/-- C13: in a run of `main` without `-dry-run` on a plan that `getTags` returned, for
every reference store and every way its `CreateTag` and `DeleteTag` succeed or fail,
with or without `-delete`: every record of the plan has a commit, the apply loop runs
to its end, and its `CreateTag` calls are exactly one per record of the plan, with the
record's target name, commit hash and message, in plan order. -/
theorem create_once_per_record {σ : Type} (rt : Runtime) (hrt : rt.Lawful)
    (repo : Repository) (gw : RefStore σ) (deleteOld : Bool) (s : σ) (plan : List tag)
    (h : getTags rt repo = some (plan, none)) :
    (main rt repo gw false deleteOld s).exit = Exit.done ∧
      (∀ t ∈ plan, t.commit.isSome = true) ∧
      createCalls (main rt repo gw false deleteOld s).calls =
        plan.filterMap (fun t => t.commit.map (fun c => (t.to_, c.Hash, t.message))) ∧
      (createCalls (main rt repo gw false deleteOld s).calls).length = plan.length ∧
      (createCalls (main rt repo gw false deleteOld s).calls).map (fun c => (c.1, c.2.2)) =
        plan.map (fun t => (t.to_, t.message)) := by
  have hc := getTags_commits rt hrt repo plan h
  have hcalls : createCalls (main rt repo gw false deleteOld s).calls =
      plan.filterMap (fun t => t.commit.map (fun c => (t.to_, c.Hash, t.message))) := by
    simp only [main, h, Bool.false_eq_true, if_false]
    exact applyLoop_createCalls gw deleteOld plan s hc
  refine ⟨?_, hc, hcalls, ?_, ?_⟩
  · simp [main, h, applyLoop_no_panic gw deleteOld plan s hc]
  · rw [hcalls]; exact filterMap_commit_length plan hc
  · rw [hcalls]; exact filterMap_commit_eq plan hc

theorem create_once_per_record_witness :
    smallRuntime.Lawful ∧
      (main smallRuntime repoJanFeb nameStore false true
          ["first", "second", "third", "v2023.1.2"]).calls =
        [Call.CreateTag "v2023.1.1" "c1" "converted from tag first" true,
          Call.DeleteTag "first" true,
          Call.CreateTag "v2023.1.2" "c2" "converted from tag second" false,
          Call.DeleteTag "second" true,
          Call.CreateTag "v2023.2.1" "c3" "converted from tag third" true,
          Call.DeleteTag "third" true] ∧
      (createCalls (main smallRuntime repoJanFeb nameStore false true
          ["first", "second", "third", "v2023.1.2"]).calls).length =
        ((getTags smallRuntime repoJanFeb).getD ([], none)).1.length :=
  ⟨smallRuntime_lawful, by decide,
    (create_once_per_record smallRuntime smallRuntime_lawful repoJanFeb nameStore true
      ["first", "second", "third", "v2023.1.2"]
      ((getTags smallRuntime repoJanFeb).getD ([], none)).1 (by decide)).2.2.2.1⟩

/-! ## The comparison at the ends of the `int64` range -/

/-- The comparison is zero exactly for equal commit times, whatever `int64` values
they are. -/
theorem cmpByDate_zero_iff (a b : tag) (ha : -2 ^ 63 ≤ unixOf a ∧ unixOf a < 2 ^ 63)
    (hb : -2 ^ 63 ≤ unixOf b ∧ unixOf b < 2 ^ 63) :
    cmpByDate a b = 0 ↔ unixOf a = unixOf b := by
  unfold cmpByDate wrapInt64
  omega

/-- Where the subtraction does not overflow, the comparison is positive exactly for a
later commit. -/
theorem cmpByDate_pos_iff (a b : tag) (h1 : -2 ^ 63 ≤ unixOf a - unixOf b)
    (h2 : unixOf a - unixOf b < 2 ^ 63) : 0 < cmpByDate a b ↔ unixOf b < unixOf a := by
  unfold cmpByDate
  rw [wrapInt64_eq _ h1 h2]
  omega

/-- C15 (the code departs from it): `late` is committed `2 ^ 62` seconds after the epoch
and `early` `2 ^ 62 + 1` seconds before it.  The `int64` difference wraps around:
comparing `late` with `early` gives a negative number although `late` is the later
commit, and comparing `early` with `late` gives a positive one.  One second less apart
(`2 ^ 63` seconds), the comparison is negative in both directions. -/
theorem cmpByDate_wraps_around :
    unixOf (recordAt "early" (-4611686018427387905)) <
        unixOf (recordAt "late" 4611686018427387904) ∧
      cmpByDate (recordAt "late" 4611686018427387904)
          (recordAt "early" (-4611686018427387905)) = -9223372036854775807 ∧
      cmpByDate (recordAt "early" (-4611686018427387905))
          (recordAt "late" 4611686018427387904) = 9223372036854775807 ∧
      cmpByDate (recordAt "late" 4611686018427387904)
          (recordAt "early" (-4611686018427387904)) = -9223372036854775808 ∧
      cmpByDate (recordAt "early" (-4611686018427387904))
          (recordAt "late" 4611686018427387904) = -9223372036854775808 := by
  decide

/-! ## Sorting twice -/

theorem foldl_insertBack_fixed (cmp : tag → tag → Int) :
    ∀ (l acc : List tag), (acc.reverse ++ l).Pairwise (fun a b => ¬ cmp b a < 0) →
      l.foldl (fun sortedRev x => insertBack cmp x sortedRev) acc = l.reverse ++ acc := by
  intro l
  induction l with
  | nil => intro acc _; rfl
  | cons x xs ih =>
    intro acc h
    have hx : insertBack cmp x acc = x :: acc := by
      cases acc with
      | nil => rfl
      | cons y ys =>
        have hyx : ¬ cmp x y < 0 :=
          (List.pairwise_append.1 h).2.2 y (by simp) x (by simp)
        simp [insertBack, hyx]
    simp only [List.foldl_cons, hx]
    rw [ih (x :: acc) (by simpa using h)]
    simp

/-- Go's insertion sort leaves a slice as it is when no element compares less than an
element before it. -/
theorem insertionSortCmpFunc_fixed (cmp : tag → tag → Int) (l : List tag)
    (h : l.Pairwise (fun a b => ¬ cmp b a < 0)) : insertionSortCmpFunc cmp l = l := by
  unfold insertionSortCmpFunc
  rw [foldl_insertBack_fixed cmp l [] (by simpa using h)]
  simp

/-- On at most twelve records with commits whose times do not overflow the
subtraction, equal times included, sorting the sorted records again returns them in
the same order. -/
theorem sortTagsByDate_twice (tags out : List tag)
    (hc : ∀ t ∈ tags, t.commit.isSome = true)
    (hb : ∀ a ∈ tags, ∀ b ∈ tags, -2 ^ 63 ≤ unixOf a - unixOf b ∧ unixOf a - unixOf b < 2 ^ 63)
    (h : sortTagsByDate smallRuntime tags = some out) :
    sortTagsByDate smallRuntime out = some out := by
  have hp := sortTagsByDate_perm smallRuntime smallRuntime_lawful tags out h
  have hs := sortTagsByDate_sorted smallRuntime smallRuntime_lawful tags out hb h
  rw [sortTagsByDate_some smallRuntime out (fun t ht => hc t (hp.subset ht))]
  congr 1
  apply insertionSortCmpFunc_fixed
  refine List.Pairwise.imp_of_mem ?_ hs
  intro a b ha hb' hab
  have hn := hb b (hp.subset hb') a (hp.subset ha)
  rw [cmpByDate_neg_iff b a hn.1 hn.2]
  omega

/-- C14 (the code departs from it): two records whose commits are exactly `2 ^ 63`
seconds apart.  The `int64` difference is `-2 ^ 63` in both directions, so each record
compares less than the other: sorting `[late, early]` gives `[early, late]`, and sorting
that result again gives `[late, early]` back. -/
theorem sortTagsByDate_not_idempotent :
    sortTagsByDate smallRuntime
        [recordAt "late" 4611686018427387904, recordAt "early" (-4611686018427387904)] =
      some [recordAt "early" (-4611686018427387904), recordAt "late" 4611686018427387904] ∧
    sortTagsByDate smallRuntime
        [recordAt "early" (-4611686018427387904), recordAt "late" 4611686018427387904] =
      some [recordAt "late" 4611686018427387904, recordAt "early" (-4611686018427387904)] := by
  decide

/-! ## Independence of the visiting order -/

theorem sortTagsByDate_eq_some (rt : Runtime) (l out : List tag)
    (h : sortTagsByDate rt l = some out) : out = rt.sortFunc cmpByDate l := by
  unfold sortTagsByDate at h
  split_ifs at h
  cases h
  rfl

/-- The second loop of `calculateTagRevision` panics when the sort of some entry does,
and otherwise returns the numbered sorted entries one after the other. -/
theorem revisionLoop_eq_ite (rt : Runtime) : ∀ entries : List (String × List tag),
    revisionLoop rt entries =
      if (entries.all fun e => (sortTagsByDate rt e.2).isSome) = true then
        some (entries.flatMap fun e => renumberFrom 0 (rt.sortFunc cmpByDate e.2))
      else none := by
  intro entries
  induction entries with
  | nil => rfl
  | cons e es ih =>
    obtain ⟨k, l⟩ := e
    simp only [revisionLoop, ih, List.all_cons, List.flatMap_cons]
    cases hs : sortTagsByDate rt l with
    | none => simp
    | some sorted =>
      rw [sortTagsByDate_eq_some rt l sorted hs]
      by_cases ha : (es.all fun e => (sortTagsByDate rt e.2).isSome) = true
      · simp [ha]
      · simp [ha]

theorem all_perm (p : String × List tag → Bool) (l1 l2 : List (String × List tag))
    (h : l1.Perm l2) : l1.all p = l2.all p := by
  rw [Bool.eq_iff_iff, List.all_eq_true, List.all_eq_true]
  exact ⟨fun H x hx => H x (h.symm.subset hx), fun H x hx => H x (h.subset hx)⟩

theorem sortTagsByDate_congr (rt1 rt2 : Runtime) (hs : rt1.sortFunc = rt2.sortFunc)
    (l : List tag) : sortTagsByDate rt1 l = sortTagsByDate rt2 l := by
  unfold sortTagsByDate
  rw [hs]

theorem renames_perm (out1 out2 : List tag) (h : out1.Perm out2) :
    (renames out1).Perm (renames out2) :=
  h.map _

/-- C11: two runs of `calculateTagRevision` on the same records that differ only in the
order in which the entries of the map are visited (same `slices.SortFunc`): one panics
exactly when the other does; otherwise they return the same records with the same
target names, in a possibly different order, so the same source name is renamed to the
same target name; and they do return when every record has a commit. -/
theorem names_independent_of_visiting_order (rt1 rt2 : Runtime)
    (hs : rt1.sortFunc = rt2.sortFunc) (h1 : ∀ m, (rt1.mapRange m).Perm m)
    (h2 : ∀ m, (rt2.mapRange m).Perm m) (tags : List tag) :
    (calculateTagRevision rt1 tags = none ↔ calculateTagRevision rt2 tags = none) ∧
      (∀ out1 out2, calculateTagRevision rt1 tags = some out1 →
        calculateTagRevision rt2 tags = some out2 →
        out1.Perm out2 ∧ (renames out1).Perm (renames out2) ∧
          ∀ p, p ∈ renames out1 ↔ p ∈ renames out2) ∧
      ((∀ t ∈ tags, t.commit.isSome = true) →
        ∃ out1 out2, calculateTagRevision rt1 tags = some out1 ∧
          calculateTagRevision rt2 tags = some out2) := by
  have hperm : (rt1.mapRange (buildTagMap tags)).Perm (rt2.mapRange (buildTagMap tags)) :=
    (h1 _).trans (h2 _).symm
  have hall : ((rt1.mapRange (buildTagMap tags)).all fun e => (sortTagsByDate rt1 e.2).isSome) =
      ((rt2.mapRange (buildTagMap tags)).all fun e => (sortTagsByDate rt2 e.2).isSome) := by
    rw [all_perm _ _ _ hperm]
    congr 1
    funext e
    rw [sortTagsByDate_congr rt1 rt2 hs]
  have e1 := revisionLoop_eq_ite rt1 (rt1.mapRange (buildTagMap tags))
  have e2 := revisionLoop_eq_ite rt2 (rt2.mapRange (buildTagMap tags))
  rw [hall] at e1
  refine ⟨?_, ?_, ?_⟩
  · unfold calculateTagRevision
    rw [e1, e2]
    split_ifs <;> simp
  · intro out1 out2 ho1 ho2
    unfold calculateTagRevision at ho1 ho2
    rw [e1] at ho1
    rw [e2] at ho2
    split_ifs at ho1 ho2
    cases ho1
    cases ho2
    have hp : ((rt1.mapRange (buildTagMap tags)).flatMap
          fun e => renumberFrom 0 (rt1.sortFunc cmpByDate e.2)).Perm
        ((rt2.mapRange (buildTagMap tags)).flatMap
          fun e => renumberFrom 0 (rt2.sortFunc cmpByDate e.2)) := by
      rw [hs]
      exact hperm.flatMap_right _
    exact ⟨hp, renames_perm _ _ hp, fun p => hp.map _ |>.mem_iff⟩
  · intro hc
    have m1 : ∀ e ∈ rt1.mapRange (buildTagMap tags), ∀ t ∈ e.2, t.commit.isSome = true := by
      intro e he t ht
      exact hc t ((buildTagMap_flat tags).subset
        (List.mem_flatMap.2 ⟨e, (h1 _).subset he, ht⟩))
    have m2 : ∀ e ∈ rt2.mapRange (buildTagMap tags), ∀ t ∈ e.2, t.commit.isSome = true := by
      intro e he t ht
      exact hc t ((buildTagMap_flat tags).subset
        (List.mem_flatMap.2 ⟨e, (h2 _).subset he, ht⟩))
    obtain ⟨o1, ho1⟩ := revisionLoop_some rt1 _ m1
    obtain ⟨o2, ho2⟩ := revisionLoop_some rt2 _ m2
    exact ⟨o1, o2, ho1, ho2⟩

theorem names_independent_of_visiting_order_witness :
    (calculateTagRevision smallRuntime recordsJanFeb).map renames =
        some [("first", "v2023.1.1"), ("second", "v2023.1.2"), ("third", "v2023.2.1")] ∧
      (calculateTagRevision reverseRangeRuntime recordsJanFeb).map renames =
        some [("third", "v2023.2.1"), ("first", "v2023.1.1"), ("second", "v2023.1.2")] ∧
      (calculateTagRevision smallRuntime recordsJanFeb = none ↔
        calculateTagRevision reverseRangeRuntime recordsJanFeb = none) :=
  ⟨by decide, by decide,
    (names_independent_of_visiting_order smallRuntime reverseRangeRuntime rfl
      (fun m => List.Perm.refl m) (fun m => List.reverse_perm m) recordsJanFeb).1⟩

/-! ## Records whose tag-object lookup failed -/

theorem calculateTagRevision_eq_some (rt : Runtime) (tags out : List tag)
    (h : calculateTagRevision rt tags = some out) :
    out = (rt.mapRange (buildTagMap tags)).flatMap
      fun e => renumberFrom 0 (rt.sortFunc cmpByDate e.2) := by
  unfold calculateTagRevision at h
  rw [revisionLoop_eq_ite] at h
  split_ifs at h
  cases h
  rfl

/-- The records named `N` come out of `calculateTagRevision` as one block numbered
`N.1`, `N.2`, ..., and no other record gets a name `N.j`. -/
theorem revision_block_names (rt : Runtime) (hrt : rt.Lawful) (tags out : List tag)
    (N : String) (h : calculateTagRevision rt tags = some out)
    (hk : ∃ t ∈ tags, t.to_ = N) :
    ∃ pre block post, out = pre ++ block ++ post ∧
      (block.map frame).Perm ((tags.filter fun t => t.to_ = N).map frame) ∧
      block.map (fun t => t.to_) =
        (List.range (tags.filter fun t => t.to_ = N).length).map
          (fun i => N ++ ("." ++ decimal (i + 1))) ∧
      ∀ t ∈ pre ++ post, ∀ j, t.to_ ≠ N ++ ("." ++ decimal j) := by
  have hmem : groupOf tags N ∈ rt.mapRange (buildTagMap tags) :=
    (mapRange_entries rt hrt tags).symm.subset
      (List.mem_map_of_mem _ ((mem_keysOf N tags).2 hk))
  obtain ⟨e1, e2, hsplit⟩ := List.append_of_mem hmem
  have hnd := mapRange_keys_nodup rt hrt tags
  have hent := mapRange_entry rt hrt tags
  have hout := calculateTagRevision_eq_some rt tags out h
  rw [hsplit] at hnd hent hout
  have hkeys1 : ∀ e ∈ e1, e = groupOf tags e.1 ∧ e.1 ≠ N := by
    intro e he
    refine ⟨(hent e (by simp [he])).2, ?_⟩
    intro heq
    rw [List.map_append, List.map_cons, List.nodup_append] at hnd
    exact hnd.2.2 (List.mem_map_of_mem Prod.fst he) (by simp [groupOf, heq])
  have hkeys2 : ∀ e ∈ e2, e = groupOf tags e.1 ∧ e.1 ≠ N := by
    intro e he
    refine ⟨(hent e (by simp [he])).2, ?_⟩
    intro heq
    rw [List.map_append, List.map_cons, List.nodup_append, List.nodup_cons] at hnd
    exact hnd.2.1.1 (by simpa [groupOf, heq] using List.mem_map_of_mem Prod.fst he)
  refine ⟨e1.flatMap (fun e => renumberFrom 0 (rt.sortFunc cmpByDate e.2)),
    renumberFrom 0 (rt.sortFunc cmpByDate (groupOf tags N).2),
    e2.flatMap (fun e => renumberFrom 0 (rt.sortFunc cmpByDate e.2)), ?_, ?_, ?_, ?_⟩
  · rw [hout]
    simp [List.flatMap_append, List.flatMap_cons]
  · rw [renumberFrom_frame]
    exact (hrt.sortFunc_perm _ _).map frame
  · rw [block_names rt hrt tags N]
    rfl
  · intro t ht
    rcases List.mem_append.1 ht with h | h
    · exact other_blocks_names rt hrt tags N e1 hkeys1 t h
    · exact other_blocks_names rt hrt tags N e2 hkeys2 t h

theorem deriveName_ne_empty (t : Time) : deriveName t ≠ "" := by
  intro h
  have := congrArg String.data h
  simp [deriveName] at this

theorem resolveStep_failed (repo : Repository) (r : Reference) (c : Commit) (e : String)
    (hc : repo.CommitObject r.Hash = .ok c) (hf : repo.TagObject r.Hash = .failed e) :
    (resolveStep repo (newTag r)).1 =
      { from_ := r.Name, to_ := "", tag := r, message := "converted from tag " ++ r.Name,
        commit := some c } := by
  simp [resolveStep, newTag, hc, hf]

theorem resolveStep_empty_name (repo : Repository) (r : Reference) (c : Commit)
    (hc : repo.CommitObject r.Hash = .ok c) :
    decide ((resolveStep repo (newTag r)).1.to_ = "") = lookupFailed repo r := by
  unfold lookupFailed
  simp only [resolveStep, newTag, hc]
  cases repo.TagObject r.Hash with
  | failed e => simp
  | notFound => simpa using deriveName_ne_empty c.When
  | found m => simpa using deriveName_ne_empty c.When

theorem collected_empty_names (repo : Repository) (refs : List Reference)
    (hall : ∀ r ∈ refs, ∃ c, repo.CommitObject r.Hash = .ok c) :
    ((resolveLoop repo (refs.map newTag) none).1.filter fun t => t.to_ = "").length =
      (refs.filter (lookupFailed repo)).length := by
  rw [resolveLoop_fst, List.map_map, List.filter_map, List.length_map]
  congr 1
  apply List.filter_congr
  intro r hr
  obtain ⟨c, hc⟩ := hall r hr
  exact resolveStep_empty_name repo r c hc

/-- C17: a reference `r` whose commit resolves and whose tag-object lookup fails with an
error other than "object not found", in a repository whose references all resolve to a
commit so that `getTags` returns a plan.  The loop leaves the record of `r` with an
empty name and the default message; the plan (whose names are pairwise distinct) holds
a record of `r` with its source name, its commit, the message
`"converted from tag " + sourceName` and the target name `"."` followed by a number
between 1 and the number of references with such a failure. -/
theorem lookup_failure_keeps_record (rt : Runtime) (hrt : rt.Lawful) (repo : Repository)
    (refs : List Reference) (hT : repo.Tags = .refs refs)
    (hall : ∀ r ∈ refs, ∃ c, repo.CommitObject r.Hash = .ok c)
    (r : Reference) (hr : r ∈ refs) (c : Commit) (hc : repo.CommitObject r.Hash = .ok c)
    (e : String) (hf : repo.TagObject r.Hash = .failed e) :
    (∃ t ∈ (resolveLoop repo (refs.map newTag) none).1,
        t.tag = r ∧ t.to_ = "" ∧ t.message = "converted from tag " ++ r.Name) ∧
      ∃ plan, getTags rt repo = some (plan, none) ∧ (plan.map fun t => t.to_).Nodup ∧
        ∃ u ∈ plan, u.tag = r ∧ u.from_ = r.Name ∧ u.commit = some c ∧
          u.message = "converted from tag " ++ r.Name ∧
          ∃ m, 1 ≤ m ∧ m ≤ (refs.filter (lookupFailed repo)).length ∧
            u.to_ = "." ++ decimal m := by
  have hstep := resolveStep_failed repo r c e hc hf
  have hmem : (resolveStep repo (newTag r)).1 ∈ (resolveLoop repo (refs.map newTag) none).1 := by
    rw [resolveLoop_fst, List.map_map]
    exact List.mem_map_of_mem _ hr
  refine ⟨⟨_, hmem, by rw [hstep], by rw [hstep], by rw [hstep]⟩, ?_⟩
  obtain ⟨plan, hplan⟩ := getTags_returns rt hrt repo refs hT hall
  have hpl := getTags_planOf rt repo refs hT plan none hplan
  refine ⟨plan, hplan, planOf_nodup rt hrt _ plan hpl, ?_⟩
  unfold planOf at hpl
  cases hcalc : calculateTagRevision rt (resolveLoop repo (refs.map newTag) none).1 with
  | none => simp [hcalc] at hpl
  | some tagged =>
    simp only [hcalc] at hpl
    have hperm := sortTagsByDate_perm rt hrt tagged plan hpl
    obtain ⟨pre, block, post, hout, hfr, hnames, -⟩ :=
      revision_block_names rt hrt _ tagged "" hcalc ⟨_, hmem, by rw [hstep]⟩
    have hin : frame (resolveStep repo (newTag r)).1 ∈
        ((resolveLoop repo (refs.map newTag) none).1.filter fun t => t.to_ = "").map frame :=
      List.mem_map_of_mem frame (List.mem_filter.2 ⟨hmem, by rw [hstep]; simp⟩)
    obtain ⟨u, hu, hfu⟩ := List.mem_map.1 (hfr.symm.subset hin)
    rw [hstep] at hfu
    simp only [frame, Prod.mk.injEq] at hfu
    have hname : u.to_ ∈ block.map (fun t => t.to_) := List.mem_map_of_mem _ hu
    rw [hnames, collected_empty_names repo refs hall] at hname
    obtain ⟨i, hi, hiu⟩ := List.mem_map.1 hname
    refine ⟨u, hperm.symm.subset (by rw [hout]; simp [hu]), hfu.2.1, hfu.1, hfu.2.2.2,
      hfu.2.2.1, i + 1, by omega, ?_, ?_⟩
    · have := List.mem_range.1 hi
      omega
    · rw [← hiu, String.empty_append]

theorem lookup_failure_keeps_record_witness :
    smallRuntime.Lawful ∧
      (getTags smallRuntime repoLookupFails).map
          (fun p => p.1.map (fun t => (t.from_, t.to_, t.message))) =
        some [("odd", ".1", "converted from tag odd"),
          ("odder", ".2", "converted from tag odder"),
          ("nightly", "v2024.6.1", "converted from tag nightly")] ∧
      (∃ t ∈ (resolveLoop repoLookupFails
            ([⟨"nightly", "c1"⟩, ⟨"odd", "c2"⟩, ⟨"odder", "c3"⟩].map newTag) none).1,
          t.tag = ⟨"odder", "c3"⟩ ∧ t.to_ = "" ∧ t.message = "converted from tag " ++ "odder") ∧
      ∃ plan, getTags smallRuntime repoLookupFails = some (plan, none) ∧
        (plan.map fun t => t.to_).Nodup ∧
        ∃ u ∈ plan, u.tag = ⟨"odder", "c3"⟩ ∧ u.from_ = "odder" ∧
          u.commit = some ⟨"c3", ⟨1675209600, 0⟩⟩ ∧
          u.message = "converted from tag " ++ "odder" ∧
          ∃ m, 1 ≤ m ∧
            m ≤ (([⟨"nightly", "c1"⟩, ⟨"odd", "c2"⟩, ⟨"odder", "c3"⟩] : List Reference).filter
              (lookupFailed repoLookupFails)).length ∧
            u.to_ = "." ++ decimal m :=
  ⟨smallRuntime_lawful, by decide,
    lookup_failure_keeps_record smallRuntime smallRuntime_lawful repoLookupFails
      [⟨"nightly", "c1"⟩, ⟨"odd", "c2"⟩, ⟨"odder", "c3"⟩] rfl
      (by
        intro r hr
        simp only [List.mem_cons, List.mem_singleton, List.not_mem_nil, or_false] at hr
        rcases hr with rfl | rfl | rfl
        · exact ⟨_, rfl⟩
        · exact ⟨_, rfl⟩
        · exact ⟨_, rfl⟩)
      ⟨"odder", "c3"⟩ (by decide) ⟨"c3", ⟨1675209600, 0⟩⟩ rfl "unexpected EOF" rfl⟩

/-! ## Ordinals and plan order -/

theorem mem_mem_sublist (x y : tag) : ∀ l : List tag, x ∈ l → y ∈ l →
    x = y ∨ [x, y].Sublist l ∨ [y, x].Sublist l := by
  intro l
  induction l with
  | nil => intro hx; simp at hx
  | cons z zs ih =>
    intro hx hy
    rcases List.mem_cons.1 hx with rfl | hx'
    · rcases List.mem_cons.1 hy with rfl | hy'
      · exact Or.inl rfl
      · exact Or.inr (Or.inl ((List.singleton_sublist.2 hy').cons₂ _))
    · rcases List.mem_cons.1 hy with rfl | hy'
      · exact Or.inr (Or.inr ((List.singleton_sublist.2 hx').cons₂ _))
      · rcases ih hx' hy' with h | h | h
        · exact Or.inl h
        · exact Or.inr (Or.inl (h.cons _))
        · exact Or.inr (Or.inr (h.cons _))

theorem insertBack_sublist (cmp : tag → tag → Int) (z : tag) :
    ∀ l : List tag, l.Sublist (insertBack cmp z l) := by
  intro l
  induction l with
  | nil => simp [insertBack]
  | cons y ys ih =>
    simp only [insertBack]
    split_ifs
    · exact ih.cons₂ _
    · exact List.sublist_cons_self _ _

/-- An element inserted by the inner loop of the insertion sort stays behind every
element it does not compare less than. -/
theorem insertBack_behind (cmp : tag → tag → Int) (x y : tag) (h : ¬ cmp y x < 0) :
    ∀ l : List tag, x ∈ l → [y, x].Sublist (insertBack cmp y l) := by
  intro l
  induction l with
  | nil => intro hx; simp at hx
  | cons r rs ih =>
    intro hx
    simp only [insertBack]
    split_ifs with hr
    · rcases List.mem_cons.1 hx with rfl | hx'
      · exact absurd hr h
      · exact (ih hx').cons _
    · exact (List.singleton_sublist.2 hx).cons₂ _

theorem foldl_insertBack_stable (cmp : tag → tag → Int) (x y : tag) (h : ¬ cmp y x < 0) :
    ∀ (l acc : List tag),
      ([x, y].Sublist l ∨ (x ∈ acc ∧ y ∈ l) ∨ [y, x].Sublist acc) →
      [y, x].Sublist (l.foldl (fun sortedRev z => insertBack cmp z sortedRev) acc) := by
  intro l
  induction l with
  | nil =>
    intro acc hcase
    rcases hcase with h1 | ⟨-, h2⟩ | h3
    · simp at h1
    · simp at h2
    · simpa using h3
  | cons z zs ih =>
    intro acc hcase
    simp only [List.foldl_cons]
    apply ih
    rcases hcase with h1 | ⟨hx, hy⟩ | h3
    · cases h1 with
      | cons _ h1' => exact Or.inl h1'
      | cons₂ _ h1' =>
        exact Or.inr (Or.inl ⟨(insertBack_perm cmp x acc).symm.subset (by simp),
          List.singleton_sublist.1 h1'⟩)
    · rcases List.mem_cons.1 hy with rfl | hy'
      · exact Or.inr (Or.inr (insertBack_behind cmp x y h acc hx))
      · exact Or.inr (Or.inl ⟨(insertBack_sublist cmp z acc).subset hx, hy'⟩)
    · exact Or.inr (Or.inr (h3.trans (insertBack_sublist cmp z acc)))

/-- Go's insertion sort is stable: `x` stays before `y` when `y` does not compare less
than `x`. -/
theorem insertionSortCmpFunc_stable (cmp : tag → tag → Int) (x y : tag) (h : ¬ cmp y x < 0)
    (l : List tag) (hl : [x, y].Sublist l) : [x, y].Sublist (insertionSortCmpFunc cmp l) := by
  unfold insertionSortCmpFunc
  have := (foldl_insertBack_stable cmp x y h l [] (Or.inl hl)).reverse
  simpa using this

theorem block_order (N : String) (block : List tag) (k : Nat)
    (hnames : block.map (fun t => t.to_) =
      (List.range k).map (fun i => N ++ ("." ++ decimal (i + 1))))
    (x y : tag) (hx : x ∈ block) (hy : y ∈ block) (i j : Nat)
    (nx : x.to_ = N ++ ("." ++ decimal i)) (ny : y.to_ = N ++ ("." ++ decimal j))
    (hij : i < j) : [x, y].Sublist block := by
  have hp : block.Pairwise (fun u v => ∀ a b, u.to_ = N ++ ("." ++ decimal a) →
      v.to_ = N ++ ("." ++ decimal b) → a < b) := by
    have h1 : ((List.range k).map (fun i => N ++ ("." ++ decimal (i + 1)))).Pairwise
        (fun s t => ∀ a b, s = N ++ ("." ++ decimal a) → t = N ++ ("." ++ decimal b) →
          a < b) := by
      rw [List.pairwise_map]
      refine (List.pairwise_lt_range k).imp ?_
      intro m n hmn a b ha hb
      have e1 := (revision_name_inj _ _ _ _ ha).2
      have e2 := (revision_name_inj _ _ _ _ hb).2
      omega
    rw [← hnames, List.pairwise_map] at h1
    exact h1
  rcases mem_mem_sublist x y block hx hy with h | h | h
  · subst h
    have := (revision_name_inj _ _ _ _ (nx.symm.trans ny)).2
    omega
  · exact h
  · have := List.pairwise_iff_forall_sublist.1 hp h j i ny nx
    omega

/-- Two records that `calculateTagRevision` names `N.i` and `N.j` with `i < j`: the first
stands before the second in its output, its commit is not the later one, and the
subtraction comparing them does not overflow. -/
theorem ordinal_pair (rt : Runtime) (hrt : rt.Lawful) (tags tagged : List tag)
    (hc : ∀ t ∈ tags, t.commit.isSome = true)
    (hsame : ∀ a ∈ tags, ∀ b ∈ tags, a.to_ = b.to_ →
      -2 ^ 63 ≤ unixOf a - unixOf b ∧ unixOf a - unixOf b < 2 ^ 63)
    (h : calculateTagRevision rt tags = some tagged)
    (N : String) (i j : Nat) (x y : tag) (hx : x ∈ tagged) (hy : y ∈ tagged)
    (nx : x.to_ = N ++ ("." ++ decimal i)) (ny : y.to_ = N ++ ("." ++ decimal j))
    (hij : i < j) :
    [x, y].Sublist tagged ∧ unixOf x ≤ unixOf y ∧
      -2 ^ 63 ≤ unixOf y - unixOf x ∧ unixOf y - unixOf x < 2 ^ 63 := by
  -- `N` is a name of the input
  have hk : ∃ t ∈ tags, t.to_ = N := by
    have hn : x.to_ ∈ tagged.map (fun t => t.to_) := List.mem_map_of_mem _ hx
    rw [revisionLoop_names rt hrt _ tagged (mapRange_entry_names rt hrt tags) h] at hn
    obtain ⟨e, he, hne⟩ := List.mem_flatMap.1 hn
    obtain ⟨m, -, hm⟩ := (mem_revisionNames e _).1 hne
    rw [nx] at hm
    have hN := (revision_name_inj _ _ _ _ hm).1
    rw [hN]
    exact (mem_keysOf _ _).1 (mapRange_entry rt hrt tags e he).1
  have hbN : ∀ a ∈ tags, ∀ b ∈ tags, a.to_ = N → b.to_ = N →
      -2 ^ 63 ≤ unixOf a - unixOf b ∧ unixOf a - unixOf b < 2 ^ 63 :=
    fun a ha b hb ea eb => hsame a ha b hb (ea.trans eb.symm)
  obtain ⟨out, pre, block, post, hout, hsplit, hfr, hnames, hsorted, hothers⟩ :=
    revision_block rt hrt tags N hc hbN hk
  rw [h, Option.some.injEq] at hout
  subst hout
  have inblock : ∀ z ∈ tagged, ∀ m, z.to_ = N ++ ("." ++ decimal m) → z ∈ block := by
    intro z hz m hm
    rw [hsplit] at hz
    rcases List.mem_append.1 hz with hz | hz
    · rcases List.mem_append.1 hz with hz | hz
      · exact absurd hm (hothers z (by simp [hz]) m)
      · exact hz
    · exact absurd hm (hothers z (by simp [hz]) m)
  have hxb := inblock x hx i nx
  have hyb := inblock y hy j ny
  have hsub := block_order N block _ hnames x y hxb hyb i j nx ny hij
  have hle : unixOf x ≤ unixOf y := List.pairwise_iff_forall_sublist.1 hsorted hsub
  have orig : ∀ z ∈ block, ∃ t ∈ tags, t.to_ = N ∧ unixOf t = unixOf z := by
    intro z hz
    obtain ⟨t, ht, e⟩ := List.mem_map.1 (hfr.subset (List.mem_map_of_mem frame hz))
    have ht' := List.mem_filter.1 ht
    exact ⟨t, ht'.1, by simpa using ht'.2, unixOf_eq_of_frame t z e⟩
  obtain ⟨tx, htx, ntx, etx⟩ := orig x hxb
  obtain ⟨ty, hty, nty, ety⟩ := orig y hyb
  have hno := hbN ty hty tx htx nty ntx
  rw [ety, etx] at hno
  refine ⟨?_, hle, hno.1, hno.2⟩
  rw [hsplit]
  exact hsub.trans ((List.sublist_append_right pre block).trans
    (List.sublist_append_left (pre ++ block) post))

theorem reverseRangeRuntime_lawful : reverseRangeRuntime.Lawful where
  sortFunc_perm := insertionSortCmpFunc_perm
  sortFunc_sorted := insertionSortCmpFunc_sorted
  mapRange_perm := fun m => List.reverse_perm m

/-- C16 (amended): for records that all have a commit, where the commit times of records
with the same name are less than `2 ^ 63` seconds apart, and two records of the plan
named `N.i` and `N.j` with `i < j`: whatever the sorting algorithm and the order in
which the map is visited, `N.i` stands before `N.j` in the plan when the two commit
times differ and no two commit times of the plan are `2 ^ 63` seconds or more apart;
and when `slices.SortFunc` is the insertion sort, which it is on at most twelve
records, `N.i` stands before `N.j` also when the two commit times are equal, in
whatever order the map is visited. -/
theorem ordinals_follow_plan_order (tags : List tag)
    (hc : ∀ t ∈ tags, t.commit.isSome = true)
    (hsame : ∀ a ∈ tags, ∀ b ∈ tags, a.to_ = b.to_ →
      -2 ^ 63 ≤ unixOf a - unixOf b ∧ unixOf a - unixOf b < 2 ^ 63) :
    (∀ rt : Runtime, rt.Lawful →
      (∀ a ∈ tags, ∀ b ∈ tags,
        -2 ^ 63 ≤ unixOf a - unixOf b ∧ unixOf a - unixOf b < 2 ^ 63) →
      ∀ plan, planOf rt tags = some plan →
      ∀ (N : String) (i j : Nat) (x y : tag), x ∈ plan → y ∈ plan →
        x.to_ = N ++ ("." ++ decimal i) → y.to_ = N ++ ("." ++ decimal j) → i < j →
        unixOf x ≠ unixOf y → [x, y].Sublist plan) ∧
      (∀ rt : Runtime, rt.Lawful → rt.sortFunc = insertionSortCmpFunc →
      ∀ plan, planOf rt tags = some plan →
      ∀ (N : String) (i j : Nat) (x y : tag), x ∈ plan → y ∈ plan →
        x.to_ = N ++ ("." ++ decimal i) → y.to_ = N ++ ("." ++ decimal j) → i < j →
        [x, y].Sublist plan) := by
  constructor
  · intro rt hrt hb plan hplan N i j x y hx hy nx ny hij hne
    have hsorted := planOf_sorted rt hrt tags plan hb hplan
    unfold planOf at hplan
    cases hcalc : calculateTagRevision rt tags with
    | none => simp [hcalc] at hplan
    | some tagged =>
      simp only [hcalc] at hplan
      have hperm := sortTagsByDate_perm rt hrt tagged plan hplan
      obtain ⟨-, hle, -, -⟩ := ordinal_pair rt hrt tags tagged hc hsame hcalc N i j x y
        (hperm.subset hx) (hperm.subset hy) nx ny hij
      rcases mem_mem_sublist x y plan hx hy with h | h | h
      · exact absurd (by rw [h]) hne
      · exact h
      · have := List.pairwise_iff_forall_sublist.1 hsorted h
        exact absurd (le_antisymm hle this) hne
  · intro rt hrt hsort plan hplan N i j x y hx hy nx ny hij
    unfold planOf at hplan
    cases hcalc : calculateTagRevision rt tags with
    | none => simp [hcalc] at hplan
    | some tagged =>
      simp only [hcalc] at hplan
      have hperm := sortTagsByDate_perm rt hrt tagged plan hplan
      obtain ⟨hsub, hle, h1, h2⟩ := ordinal_pair rt hrt tags tagged
        hc hsame hcalc N i j x y (hperm.subset hx) (hperm.subset hy) nx ny hij
      rw [sortTagsByDate_eq_some rt tagged plan hplan, hsort]
      apply insertionSortCmpFunc_stable cmpByDate x y _ tagged hsub
      rw [cmpByDate_neg_iff y x h1 h2]
      omega

theorem ordinals_follow_plan_order_witness :
    (planOf smallRuntime recordsTie).map renames =
        some [("a", "v2024.6.1"), ("b", "v2024.6.2")] ∧
      [(⟨"a", "v2024.6.1", ⟨"a", "c1"⟩, "converted from tag a", some commitJune⟩ : tag),
          ⟨"b", "v2024.6.2", ⟨"b", "c1"⟩, "converted from tag b", some commitJune⟩].Sublist
        ((planOf smallRuntime recordsTie).getD []) ∧
      (planOf reverseRangeRuntime recordsTwoTies).map renames =
        some [("c", "v2023.1.1"), ("d", "v2023.1.2"), ("a", "v2024.6.1"),
          ("b", "v2024.6.2")] ∧
      (calculateTagRevision reverseRangeRuntime recordsTwoTies).map renames =
        some [("c", "v2023.1.1"), ("d", "v2023.1.2"), ("a", "v2024.6.1"),
          ("b", "v2024.6.2")] ∧
      (calculateTagRevision smallRuntime recordsTwoTies).map renames =
        some [("a", "v2024.6.1"), ("b", "v2024.6.2"), ("c", "v2023.1.1"),
          ("d", "v2023.1.2")] ∧
      [{ recordAt "c" 1672876800 with to_ := "v2023.1.1" },
          { recordAt "d" 1672876800 with to_ := "v2023.1.2" }].Sublist
        ((planOf reverseRangeRuntime recordsTwoTies).getD []) :=
  ⟨by decide,
    (ordinals_follow_plan_order recordsTie (by decide) (by decide)).2
      smallRuntime smallRuntime_lawful rfl
      ((planOf smallRuntime recordsTie).getD []) (by decide) "v2024.6" 1 2 _ _
      (by decide) (by decide) (by decide) (by decide) (by decide),
    by decide, by decide, by decide,
    (ordinals_follow_plan_order recordsTwoTies (by decide) (by decide)).2
      reverseRangeRuntime reverseRangeRuntime_lawful rfl
      ((planOf reverseRangeRuntime recordsTwoTies).getD []) (by decide) "v2023.1" 1 2 _ _
      (by decide) (by decide) (by decide) (by decide) (by decide)⟩

/-- C16 (as the code has it): thirteen tags, `t05` and `t06` on the same commit, the
others on commits of other months, enumerated `t00` to `t12`, `t00` being on the latest
commit.  `t05` is numbered `v2023.5.1` and `t06` `v2023.5.2`.  On thirteen records
`slices.SortFunc` does not run the insertion sort: it picks `t06` as pivot, and its
partition puts `t05`, which does not compare less than the pivot, behind it.  The plan
lists `v2023.5.2` before `v2023.5.1`. -/
theorem plan_order_against_ordinals :
    (getTags runtime13 repoThirteen).map (fun p => renames p.1) =
      some [("t01", "v2023.1.1"), ("t02", "v2023.2.1"), ("t03", "v2023.3.1"),
        ("t04", "v2023.4.1"), ("t06", "v2023.5.2"), ("t05", "v2023.5.1"),
        ("t07", "v2023.6.1"), ("t08", "v2023.7.1"), ("t09", "v2023.8.1"),
        ("t10", "v2023.9.1"), ("t11", "v2023.10.1"), ("t12", "v2023.11.1"),
        ("t00", "v2023.12.1")] := by
  decide
end CalverTagger
